import Mathlib

/-!
Verification of the MLX vision OCR sidecar (server/scripts/mlx_vision_server.py).

The pipeline around the model call is embedded shallowly: the result cache
(an ordered association list, front = least recently used), the fast-path
merchant table, the markdown-fence response parser, and the extract endpoint
as a state-passing function.  The vision-language model, hashlib, base64 and
json.loads are standard-library or external collaborators; they are modelled
as documented on the corresponding definitions.
-/

namespace FeedCenter

/-! ## List/string helpers mirroring the Python string operations used -/

/-- Bool substring test, mirroring the Python `in` operator on str. -/
def containsL (pat : List Char) : List Char → Bool
  | [] => pat.isEmpty
  | s@(_ :: t) => pat.isPrefixOf s || containsL pat t

/-- Greedy leftmost split worker for `splitOnL`, fuelled so that it reduces by
kernel computation.  Matches Python str.split semantics: scan left to right,
cut at each non-overlapping occurrence of the separator. -/
def splitGoF : Nat → List Char → List Char → List Char → List (List Char)
  | _, _, acc, [] => [acc]
  | 0, _, acc, s => [acc ++ s]
  | fuel+1, sep, acc, x :: xs =>
    if sep.isPrefixOf (x :: xs) then
      acc :: splitGoF fuel sep [] ((x :: xs).drop sep.length)
    else
      splitGoF fuel sep (acc ++ [x]) xs

/-- Python str.split with a nonempty separator (Python raises on an empty
separator; the code only splits on the fence markers, which are nonempty). -/
def splitOnL (sep s : List Char) : List (List Char) :=
  splitGoF s.length sep [] s

/-- Python str.strip: drop whitespace from both ends. -/
def trimL (s : List Char) : List Char :=
  ((s.dropWhile Char.isWhitespace).reverse.dropWhile Char.isWhitespace).reverse

/-- Python str.lower (the texts involved are ASCII). -/
def lowerL (s : List Char) : List Char := s.map Char.toLower

/-! ## JSON values and the modelled `json.loads` -/

/-- JSON values as produced by json.loads: null, booleans, numbers, strings,
arrays, and objects with insertion-ordered fields (Python dict order). -/
inductive Json where
  | null : Json
  | bool (b : Bool) : Json
  | num (n : Int) : Json
  | str (s : String) : Json
  | arr (xs : List Json) : Json
  | obj (fields : List (String × Json)) : Json

/-- Python truthiness of a JSON value (`if extracted`, `if not ... .get(...)`). -/
def jsonTruthy : Json → Bool
  | .null => false
  | .bool b => b
  | .num n => decide (n ≠ 0)
  | .str s => decide (s ≠ "")
  | .arr xs => !xs.isEmpty
  | .obj fs => !fs.isEmpty

/-- Skip JSON whitespace. -/
def skipWs (s : List Char) : List Char := s.dropWhile Char.isWhitespace

/-- String body scanner: reads characters up to the closing quote.  Escape
sequences are not modelled (no claim involves them); a backslash makes the
modelled parse fail. -/
def pStrChars : List Char → Option (List Char × List Char)
  | [] => none
  | c :: rest =>
    if c = '"' then some ([], rest)
    else if c = '\\' then none
    else match pStrChars rest with
      | some (cs, r) => some (c :: cs, r)
      | none => none

/-- Longest digit run at the front of the input. -/
def takeDigits : List Char → (List Char × List Char)
  | [] => ([], [])
  | c :: rest =>
    if c.isDigit then
      match takeDigits rest with
      | (ds, r) => (c :: ds, r)
    else ([], c :: rest)

/-- Digits to a natural number. -/
def digitsToNat (ds : List Char) : Nat :=
  ds.foldl (fun n c => n * 10 + (c.toNat - 48)) 0

/-- Integer literal scanner (optional minus sign, then digits).  Fractional and
exponent forms are not modelled (no claim involves them). -/
def pNum (s : List Char) : Option (Int × List Char) :=
  match s with
  | '-' :: rest =>
    match takeDigits rest with
    | ([], _) => none
    | (ds, r) => some (-(digitsToNat ds : Int), r)
  | _ =>
    match takeDigits s with
    | ([], _) => none
    | (ds, r) => some ((digitsToNat ds : Int), r)

mutual

/-- Fuelled JSON value parser (fuel is decremented once per production and at
least one character is consumed alongside, so fuel = input length suffices). -/
def pVal : Nat → List Char → Option (Json × List Char)
  | 0, _ => none
  | fuel+1, s =>
    match skipWs s with
    | 'n' :: 'u' :: 'l' :: 'l' :: rest => some (Json.null, rest)
    | 't' :: 'r' :: 'u' :: 'e' :: rest => some (Json.bool true, rest)
    | 'f' :: 'a' :: 'l' :: 's' :: 'e' :: rest => some (Json.bool false, rest)
    | '"' :: rest =>
      match pStrChars rest with
      | some (cs, r) => some (Json.str (String.mk cs), r)
      | none => none
    | '[' :: rest =>
      match skipWs rest with
      | ']' :: r => some (Json.arr [], r)
      | s1 =>
        match pVal fuel s1 with
        | some (v, r1) => pArrTail fuel [v] r1
        | none => none
    | '{' :: rest =>
      match skipWs rest with
      | '}' :: r => some (Json.obj [], r)
      | '"' :: s1 =>
        match pStrChars s1 with
        | some (kcs, r1) =>
          match skipWs r1 with
          | ':' :: r2 =>
            match pVal fuel r2 with
            | some (v, r3) => pObjTail fuel [(String.mk kcs, v)] r3
            | none => none
          | _ => none
        | none => none
      | _ => none
    | s1 =>
      match pNum s1 with
      | some (n, r) => some (Json.num n, r)
      | none => none

/-- Array continuation: after one element, expects a comma or closing bracket. -/
def pArrTail : Nat → List Json → List Char → Option (Json × List Char)
  | 0, _, _ => none
  | fuel+1, acc, s =>
    match skipWs s with
    | ']' :: r => some (Json.arr acc.reverse, r)
    | ',' :: r =>
      match pVal fuel r with
      | some (v, r1) => pArrTail fuel (v :: acc) r1
      | none => none
    | _ => none

/-- Object continuation: after one member, expects a comma or closing brace. -/
def pObjTail : Nat → List (String × Json) → List Char → Option (Json × List Char)
  | 0, _, _ => none
  | fuel+1, acc, s =>
    match skipWs s with
    | '}' :: r => some (Json.obj acc.reverse, r)
    | ',' :: r =>
      match skipWs r with
      | '"' :: s1 =>
        match pStrChars s1 with
        | some (kcs, r1) =>
          match skipWs r1 with
          | ':' :: r2 =>
            match pVal fuel r2 with
            | some (v, r3) => pObjTail fuel ((String.mk kcs, v) :: acc) r3
            | none => none
          | _ => none
        | none => none
      | _ => none
    | _ => none

end

/-- Modelled from the spec: json.loads is a standard-library collaborator; the
parser above recovers a structured JSON value or fails, and `jsonLoads`
additionally requires the whole input to be consumed (modulo trailing
whitespace), as json.loads does. -/
def jsonLoads (s : List Char) : Option Json :=
  match pVal (s.length + 1) s with
  | some (v, rest) => if (skipWs rest).isEmpty then some v else none
  | none => none

/-! ## Response-parsing layer: markdown fence stripping (extract, lines 358-370) -/

/-- The JSON-tagged fence marker. -/
def fenceJson : List Char := "```json".toList

/-- The plain fence marker. -/
def fenceMark : List Char := "```".toList

/-- Candidate selection from raw model text, line for line from the source:
if the text contains a JSON-tagged marker, split on it, take the last segment
and cut it at the next plain fence, stripped; else if it contains a plain
fence, take the segment between the first pair, stripped; else the text
itself. -/
def selectCandidate (t : List Char) : List Char :=
  if containsL fenceJson t then
    trimL ((splitOnL fenceMark ((splitOnL fenceJson t).getLastD [])).headD [])
  else if containsL fenceMark t then
    trimL ((splitOnL fenceMark ((splitOnL fenceMark t).getD 1 [])).headD [])
  else t

/-- The parse step applied to raw model text: select the candidate and attempt
to decode it; failure gives a null extraction, never an error. -/
def parseModelText (t : List Char) : Option Json :=
  jsonLoads (selectCandidate t)

/-! ## Fast-path merchant recognition (FAST_PATH_MERCHANTS, _try_fast_path) -/

/-- One fast-path rule's metadata: canonical merchant display name, category
label and currency code. -/
structure FastMeta where
  merchant : String
  category : String
  currency : String
deriving DecidableEq

/-- The fast-path merchant table in its fixed definition order (a Python dict
preserves insertion order, so it is embedded as an ordered list of rules). -/
def FAST_PATH_MERCHANTS : List (String × FastMeta) :=
  [ ("pingo doce", ⟨"Pingo Doce", "Supermercado", "EUR"⟩),
    ("continente", ⟨"Continente", "Supermercado", "EUR"⟩),
    ("lidl", ⟨"Lidl", "Supermercado", "EUR"⟩),
    ("aldi", ⟨"Aldi", "Supermercado", "EUR"⟩),
    ("mercadona", ⟨"Mercadona", "Supermercado", "EUR"⟩),
    ("edp", ⟨"EDP", "Serviços", "EUR"⟩),
    ("galp", ⟨"Galp", "Transportes", "EUR"⟩),
    ("meo", ⟨"MEO", "Serviços", "EUR"⟩),
    ("vodafone", ⟨"Vodafone", "Serviços", "EUR"⟩),
    ("nos", ⟨"NOS", "Serviços", "EUR"⟩),
    ("uber", ⟨"Uber", "Transportes", "EUR"⟩),
    ("bolt", ⟨"Bolt", "Transportes", "EUR"⟩),
    ("worten", ⟨"Worten", "Tecnologia", "EUR"⟩),
    ("fnac", ⟨"FNAC", "Tecnologia", "EUR"⟩),
    ("zara", ⟨"Zara", "Vestuário", "EUR"⟩),
    ("primark", ⟨"Primark", "Vestuário", "EUR"⟩),
    ("mcdonald", ⟨"McDonald's", "Restaurante", "EUR"⟩),
    ("burger king", ⟨"Burger King", "Restaurante", "EUR"⟩),
    ("ikea", ⟨"IKEA", "Outros", "EUR"⟩) ]

/-- The scan of _try_fast_path: first rule, in list order, whose keyword is
contained in the lowercased text. -/
def findRule (lowtext : List Char) : List (String × FastMeta) → Option FastMeta
  | [] => none
  | (k, m) :: rules =>
    if containsL k.toList lowtext then some m else findRule lowtext rules

/-- Embeds _try_fast_path: lowercase the text, scan the table in definition
order, return the first matching rule's metadata (the fast-path-hit counter is
incremented by the caller embedding exactly when this returns a value). -/
def try_fast_path (raw_text : String) : Option FastMeta :=
  findRule (lowerL raw_text.toList) FAST_PATH_MERCHANTS

/-! ## JSON object operations used by the enrichment step -/

/-- Python dict .get on an object's field list (first match; dict keys are
unique, and the embedding's update preserves that). -/
def objGet (fields : List (String × Json)) (k : String) : Option Json :=
  List.lookup k fields

/-- Python dict item assignment: update in place if the key is present,
else append at the end (dicts preserve insertion order). -/
def objSet : List (String × Json) → String → Json → List (String × Json)
  | [], k, v => [(k, v)]
  | (k', v') :: t, k, v =>
    if k' = k then (k, v) :: t else (k', v') :: objSet t k v

/-- Python expression extracted.get("merchant", "") or "" followed by
.lower() inside _try_fast_path: a truthy non-string merchant value makes
.lower() raise AttributeError (modelled as a failing result, none); any falsy
value collapses to the empty string. -/
def merchantText (fields : List (String × Json)) : Option String :=
  match objGet fields "merchant" with
  | none => some ""
  | some v =>
    if jsonTruthy v then
      match v with
      | .str s => some s
      | _ => none
    else some ""

/-- Outcome of the enrichment block: either an uncaught exception propagates
(raised) or the block completes with the possibly-updated extraction and a
flag telling whether a fast-path rule fired. -/
inductive EnrichOut where
  | raised : EnrichOut
  | done (extraction : Option Json) (fastHit : Bool) : EnrichOut

/-- The three field assignments applied when a fast-path rule matches: the
merchant label is always rewritten to the rule's canonical name, and
category/currency are assigned only when their current value is falsy
(absent, null, empty, zero or false). -/
def enrichFields (fields : List (String × Json)) (meta : FastMeta) :
    List (String × Json) :=
  let f1 := objSet fields "merchant" (Json.str meta.merchant)
  let f2 := if jsonTruthy ((objGet f1 "category").getD Json.null)
            then f1 else objSet f1 "category" (Json.str meta.category)
  if jsonTruthy ((objGet f2 "currency").getD Json.null)
  then f2 else objSet f2 "currency" (Json.str meta.currency)

/-- Embeds the fast-path enrichment block of extract (lines 372-382): entered
only for a truthy dict (a non-empty object). -/
def enrichStep (extracted : Option Json) : EnrichOut :=
  match extracted with
  | some (Json.obj fields) =>
    if fields.isEmpty then .done extracted false
    else
      match merchantText fields with
      | none => .raised
      | some mstr =>
        match try_fast_path mstr with
        | none => .done extracted false
        | some meta => .done (some (Json.obj (enrichFields fields meta))) true
  | _ => .done extracted false

/-- Unfolding of the enrichment block on an object value. -/
theorem enrichStep_obj (fields : List (String × Json)) :
    enrichStep (some (Json.obj fields)) =
      if fields.isEmpty then .done (some (Json.obj fields)) false
      else
        match merchantText fields with
        | none => .raised
        | some mstr =>
          match try_fast_path mstr with
          | none => .done (some (Json.obj fields)) false
          | some meta =>
            .done (some (Json.obj (enrichFields fields meta))) true :=
  rfl

/-! ## Result cache and process-wide counters (_cache_get, _cache_put) -/

/-- Timing statistics attached to each successful response, as produced by the
model collaborator wrapper _generate_from_image. -/
structure GenStats where
  generation_time_s : ℚ
  tokens_per_second : Option ℚ
  peak_memory_gb : Option ℚ

/-- The response envelope built by extract and stored in the cache: status,
structured extraction (possibly null), raw model text and timing stats. -/
structure Envelope where
  status : String
  extraction : Option Json
  raw_text : String
  stats : GenStats

/-- The mutable module-level state: the ordered content cache (front = least
recently used, back = most recently used) and the process-wide counters.
model_calls counts invocations of the model collaborator (the observable the
spec's idempotence property constrains). -/
structure ServerState where
  content_cache : List (String × Envelope)
  cache_hits : Nat
  cache_misses : Nat
  fast_path_hits : Nat
  model_calls : Nat

/-- The state at process start: empty cache, all counters zero. -/
def initState : ServerState := ⟨[], 0, 0, 0, 0⟩

/-- Concrete envelope used to instantiate theorems at specific inputs. -/
def envA : Envelope := ⟨"ok", some Json.null, "a-text", ⟨0, none, none⟩⟩

/-- Second concrete envelope used to instantiate theorems. -/
def envB : Envelope := ⟨"ok", some (Json.num 1), "b-text", ⟨0, none, none⟩⟩

/-- Default MLX_CACHE_SIZE. -/
def MAX_CACHE_SIZE : Nat := 256

/-- OrderedDict assignment plus move_to_end: any existing entry for the key is
removed and the pair is appended at the most-recently-used end. -/
def moveEndL (c : List (String × Envelope)) (k : String) (v : Envelope) :
    List (String × Envelope) :=
  (c.filter (fun p => p.1 != k)) ++ [(k, v)]

/-- Embeds _cache_get: on a present key, move it to the most-recently-used
end, count a hit and return the stored envelope; on an absent key return
nothing and leave the state unchanged. -/
def cache_get (st : ServerState) (key : String) : Option Envelope × ServerState :=
  match List.lookup key st.content_cache with
  | some v =>
    (some v, { st with content_cache := moveEndL st.content_cache key v,
                       cache_hits := st.cache_hits + 1 })
  | none => (none, st)

/-- The eviction loop of _cache_put: while the size exceeds the capacity, pop
the least-recently-used entry (the front). -/
def evictLoop (cap : Nat) : List (String × Envelope) → List (String × Envelope)
  | [] => []
  | x :: t => if cap < (x :: t).length then evictLoop cap t else x :: t

/-- Embeds _cache_put: count a miss, insert-or-overwrite the key, mark it
most recently used, then evict from the least-recently-used end until the
size is within the capacity. -/
def cache_put (cap : Nat) (st : ServerState) (key : String) (v : Envelope) :
    ServerState :=
  { st with content_cache := evictLoop cap (moveEndL st.content_cache key v),
            cache_misses := st.cache_misses + 1 }

/-! ## External collaborators, modelled -/

/-- Modelled from the spec: the ContentHasher (hashlib.sha256 is a
standard-library collaborator).  The spec requires a deterministic digest with
cryptographic collision resistance; the model realises this as an injective
textual encoding of the byte sequence. -/
def sha256hex (data : List Nat) : String :=
  String.mk ((data.map (fun b => (Nat.toDigits 10 b) ++ ['.'])).flatten)

/-- Modelled from the spec: transport decoding of the base64 image field
(base64.b64decode is a standard-library collaborator).  The model keeps the
one property the pipeline relies on: strings over the base64 alphabet decode
to a byte sequence, any other character makes decoding fail. -/
def b64decode (s : String) : Option (List Nat) :=
  if s.toList.all (fun c => c.isAlphanum || c = '+' || c = '/' || c = '=') then
    some (s.toList.map Char.toNat)
  else none

/-- Result of one model invocation as surfaced by _generate_from_image. -/
structure GenResult where
  text : String
  stats : GenStats

/-- The model collaborator: an opaque function of the image bytes, the prompt
and the token budget (the real model is invoked through a temporary image
file; the bytes written there are the function's input). -/
def Oracle : Type := List Nat → String → Nat → GenResult

/-! ## The extract endpoint -/

/-- Request body of POST /extract. -/
structure ExtractRequest where
  image : String
  mime_type : String := "image/png"
  prompt : Option String := none
  max_tokens : Nat := 1024

/-- The fixed extraction prompt (braces written as escapes). -/
def EXTRACT_SYSTEM_PROMPT : String :=
  "You are a receipt and invoice data extractor for a personal finance system.\nAnalyze the image and return ONLY valid JSON with this exact structure:\n\x7b\n  \"merchant\": \"store or company name\",\n  \"total\": 0.00,\n  \"currency\": \"EUR\",\n  \"date\": \"YYYY-MM-DD or null\",\n  \"category\": \"best-fit category\",\n  \"items\": [\n    \x7b\"name\": \"item description\", \"quantity\": 1, \"price\": 0.00\x7d\n  ]\n\x7d\nRules:\n- Extract ALL visible items with their prices.\n- Use the exact merchant name as printed.\n- Infer currency from symbols (€=EUR, $=USD, £=GBP) or context.\n- Date format: YYYY-MM-DD. Use null if not visible.\n- Category: one of Supermercado, Restaurante, Transportes, Saúde, Tecnologia, Serviços, Vestuário, Entretenimento, Educação, Outros.\n- Never invent data not visible in the image."

/-- Successful response body of POST /extract: the envelope plus the cache
provenance tag and the 16-character content-hash preview. -/
structure ExtractResponse where
  body : Envelope
  cache : String
  content_hash : String

/-- Outcome of one extract call: an HTTP-level failure (HTTPException status
code, or 500 for an uncaught exception) or a successful response. -/
inductive ExtractResult where
  | fail (statusCode : Nat) (detail : String) : ExtractResult
  | ok (resp : ExtractResponse) : ExtractResult

/-- Embeds the extract endpoint (lines 328-406): reject when the model is not
loaded (503) or the image is undecodable (400); hash the bytes and serve a
cache hit without touching the model; otherwise invoke the model, strip
fences, attempt a JSON parse, enrich a truthy parsed dict via the fast path,
cache the result only when the extraction is non-null, and return it tagged
as a miss. -/
def extract (oracle : Oracle) (model_loaded : Bool) (cap : Nat)
    (st : ServerState) (req : ExtractRequest) : ExtractResult × ServerState :=
  if model_loaded = false then (.fail 503 "Model not loaded", st)
  else
    match b64decode req.image with
    | none => (.fail 400 "Invalid base64 image data", st)
    | some image_bytes =>
      let content_hash := sha256hex image_bytes
      match cache_get st content_hash with
      | (some cachedEnv, st1) =>
        (.ok ⟨cachedEnv, "hit", String.mk (content_hash.toList.take 16)⟩, st1)
      | (none, st1) =>
        let raw := oracle image_bytes (req.prompt.getD EXTRACT_SYSTEM_PROMPT)
          req.max_tokens
        let st2 := { st1 with model_calls := st1.model_calls + 1 }
        let extracted := parseModelText raw.text.toList
        match enrichStep extracted with
        | .raised => (.fail 500 "AttributeError", st2)
        | .done extraction fastHit =>
          let st3 := if fastHit
                     then { st2 with fast_path_hits := st2.fast_path_hits + 1 }
                     else st2
          let result : Envelope := ⟨"ok", extraction, raw.text, raw.stats⟩
          let st4 := if extraction.isSome
                     then cache_put cap st3 content_hash result
                     else st3
          (.ok ⟨result, "miss", String.mk (content_hash.toList.take 16)⟩, st4)

/-- Conditional bump of the fast-path counter, as performed on the miss path
when a rule fired. -/
def fpBump (b : Bool) (st : ServerState) : ServerState :=
  if b then { st with fast_path_hits := st.fast_path_hits + 1 } else st

/-! ## The health endpoint -/

/-- Python round(x, d) modelled over the rationals: scale, round to the
nearest integer, unscale (the source computes on binary floats; the claims
involved stay away from representation-dependent ties). -/
def roundTo (d : Nat) (x : ℚ) : ℚ :=
  (round (x * (10 : ℚ) ^ d) : ℚ) / (10 : ℚ) ^ d

/-- Cache block of the health response. -/
structure CacheStats where
  size : Nat
  max_size : Nat
  hits : Nat
  misses : Nat
  fast_path_hits : Nat
  hit_rate : ℚ

/-- Body of GET /health. -/
structure HealthResponse where
  status : String
  role : String
  model : String
  load_time_s : ℚ
  ready : Bool
  cache : CacheStats

/-- Embeds the health endpoint (lines 309-325); the hit-rate divisor is
clamped to at least one, so the division is always well defined. -/
def health (cap : Nat) (model_loaded : Bool) (modelId : String)
    (load_time : ℚ) (st : ServerState) : HealthResponse :=
  { status := "ok", role := "ocr-only", model := modelId,
    load_time_s := roundTo 2 load_time, ready := model_loaded,
    cache :=
      { size := st.content_cache.length, max_size := cap,
        hits := st.cache_hits, misses := st.cache_misses,
        fast_path_hits := st.fast_path_hits,
        hit_rate := roundTo 3 ((st.cache_hits : ℚ) /
          ((max 1 (st.cache_hits + st.cache_misses) : Nat) : ℚ)) } }

/-! ## Association-list lemmas for the cache -/

theorem lookup_eq_none_of_keys {c : List (String × Envelope)} {k : String}
    (h : ∀ p ∈ c, p.1 ≠ k) : List.lookup k c = none := by
  induction c with
  | nil => rfl
  | cons p t ih =>
    have hp : p.1 ≠ k := h p (List.mem_cons_self p t)
    obtain ⟨a, b⟩ := p
    have hk : (k == a) = false := by
      simp only [beq_eq_false_iff_ne, ne_eq]
      exact fun e => hp (by simpa using e.symm)
    simp only [List.lookup_cons, hk]
    exact ih fun q hq => h q (List.mem_cons_of_mem _ hq)

theorem lookup_mem {c : List (String × Envelope)} {k : String} {v : Envelope}
    (h : List.lookup k c = some v) : (k, v) ∈ c := by
  induction c with
  | nil => simp [List.lookup] at h
  | cons p t ih =>
    obtain ⟨a, b⟩ := p
    cases hk : (k == a) with
    | true =>
      simp only [List.lookup_cons, hk] at h
      have ha : k = a := by simpa using hk
      have hb : b = v := by simpa using h
      subst ha; subst hb
      exact List.mem_cons_self _ _
    | false =>
      simp only [List.lookup_cons, hk] at h
      exact List.mem_cons_of_mem _ (ih h)

theorem lookup_append_some {c d : List (String × Envelope)} {k : String}
    {v : Envelope} (h : List.lookup k c = some v) :
    List.lookup k (c ++ d) = some v := by
  induction c with
  | nil => simp [List.lookup] at h
  | cons p t ih =>
    obtain ⟨a, b⟩ := p
    cases hk : (k == a) with
    | true => simpa only [List.cons_append, List.lookup_cons, hk] using
        (by simpa only [List.lookup_cons, hk] using h : some b = some v)
    | false =>
      simp only [List.lookup_cons, hk] at h
      simpa only [List.cons_append, List.lookup_cons, hk] using ih h

theorem lookup_append_none {c d : List (String × Envelope)} {k : String}
    (h : List.lookup k c = none) :
    List.lookup k (c ++ d) = List.lookup k d := by
  induction c with
  | nil => rfl
  | cons p t ih =>
    obtain ⟨a, b⟩ := p
    cases hk : (k == a) with
    | true =>
      simp only [List.lookup_cons, hk] at h
      exact absurd h (by simp)
    | false =>
      simp only [List.lookup_cons, hk] at h
      simpa only [List.cons_append, List.lookup_cons, hk] using ih h

theorem filter_keys_all_ne {c : List (String × Envelope)} {k : String} :
    ∀ p ∈ c.filter (fun p => p.1 != k), p.1 ≠ k := by
  intro p hp
  have := List.of_mem_filter hp
  simpa using this

theorem filter_ne_eq_self {c : List (String × Envelope)} {k : String}
    (h : ∀ p ∈ c, p.1 ≠ k) : c.filter (fun p => p.1 != k) = c := by
  induction c with
  | nil => rfl
  | cons p t ih =>
    have hp : p.1 ≠ k := h p (List.mem_cons_self p t)
    simp only [List.filter_cons]
    rw [if_pos (by simpa using hp)]
    rw [ih fun q hq => h q (List.mem_cons_of_mem _ hq)]

theorem lookup_moveEndL_self {c : List (String × Envelope)} {k : String}
    {v : Envelope} : List.lookup k (moveEndL c k v) = some v := by
  unfold moveEndL
  rw [lookup_append_none (lookup_eq_none_of_keys filter_keys_all_ne)]
  simp [List.lookup_cons]

theorem lookup_filter_ne {c : List (String × Envelope)} {k k' : String}
    (h : k' ≠ k) :
    List.lookup k' (c.filter (fun p => p.1 != k)) = List.lookup k' c := by
  induction c with
  | nil => rfl
  | cons p t ih =>
    obtain ⟨a, b⟩ := p
    simp only [List.filter_cons]
    by_cases ha : a = k
    · subst ha
      rw [if_neg (by simp)]
      have hk : (k' == a) = false := by
        simp only [beq_eq_false_iff_ne, ne_eq]; exact h
      simp only [List.lookup_cons, hk, ih]
    · rw [if_pos (by simpa using ha)]
      simp only [List.lookup_cons, ih]

theorem lookup_moveEndL_ne {c : List (String × Envelope)} {k k' : String}
    {v : Envelope} (h : k' ≠ k) :
    List.lookup k' (moveEndL c k v) = List.lookup k' c := by
  unfold moveEndL
  cases hc : List.lookup k' (c.filter (fun p => p.1 != k)) with
  | some w =>
    rw [lookup_append_some hc, ← lookup_filter_ne h, hc]
  | none =>
    rw [lookup_append_none hc]
    have hc2 : List.lookup k' c = none := by
      rw [← lookup_filter_ne h]; exact hc
    rw [hc2]
    have hk : (k' == k) = false := by
      simp only [beq_eq_false_iff_ne, ne_eq]; exact h
    simp [List.lookup_cons, hk]

theorem evictLoop_eq_drop (cap : Nat) (c : List (String × Envelope)) :
    evictLoop cap c = c.drop (c.length - cap) := by
  induction c with
  | nil => simp [evictLoop]
  | cons x t ih =>
    simp only [evictLoop]
    by_cases h : cap < (x :: t).length
    · rw [if_pos h, ih]
      have he : (x :: t).length - cap = (t.length - cap) + 1 := by
        simp only [List.length_cons] at h ⊢; omega
      rw [he, List.drop_succ_cons]
    · rw [if_neg h]
      have he : (x :: t).length - cap = 0 := by
        simp only [List.length_cons] at h ⊢; omega
      rw [he, List.drop_zero]

theorem length_evictLoop_le (cap : Nat) (c : List (String × Envelope)) :
    (evictLoop cap c).length ≤ cap := by
  induction c with
  | nil => simp [evictLoop]
  | cons x t ih =>
    simp only [evictLoop]
    by_cases h : cap < (x :: t).length
    · rw [if_pos h]; exact ih
    · rw [if_neg h]; omega

theorem mem_evictLoop {cap : Nat} {c : List (String × Envelope)} {p}
    (h : p ∈ evictLoop cap c) : p ∈ c := by
  rw [evictLoop_eq_drop] at h
  exact List.mem_of_mem_drop h

theorem lookup_cache_put_self {cap : Nat} {st : ServerState} {k : String}
    {v : Envelope} (hcap : 1 ≤ cap) :
    List.lookup k (cache_put cap st k v).content_cache = some v := by
  unfold cache_put moveEndL
  simp only
  rw [evictLoop_eq_drop]
  have hd : ((st.content_cache.filter (fun p => p.1 != k)) ++ [(k, v)]).length - cap ≤
      (st.content_cache.filter (fun p => p.1 != k)).length := by
    simp only [List.length_append, List.length_singleton]; omega
  rw [List.drop_append_of_le_length hd]
  rw [lookup_append_none (lookup_eq_none_of_keys fun p hp =>
    filter_keys_all_ne (c := st.content_cache) p (List.mem_of_mem_drop hp))]
  simp [List.lookup_cons]

/-! ## Operation sequences over the cache -/

/-- A sequence of puts, one pair at a time, left to right. -/
def putList (cap : Nat) (st : ServerState) : List (String × Envelope) → ServerState
  | [] => st
  | (k, v) :: rest => putList cap (cache_put cap st k v) rest

/-- N repeated puts of the same key and value. -/
def putSame (cap : Nat) (k : String) (v : Envelope) : Nat → ServerState → ServerState
  | 0, st => st
  | n+1, st => putSame cap k v n (cache_put cap st k v)

/-- M repeated gets of the same key. -/
def getSame (k : String) : Nat → ServerState → ServerState
  | 0, st => st
  | n+1, st => getSame k n (cache_get st k).2

theorem cache_put_misses (cap : Nat) (st : ServerState) (k : String)
    (v : Envelope) : (cache_put cap st k v).cache_misses = st.cache_misses + 1 :=
  rfl

theorem cache_put_hits (cap : Nat) (st : ServerState) (k : String)
    (v : Envelope) : (cache_put cap st k v).cache_hits = st.cache_hits :=
  rfl

theorem cache_put_cache_fresh {cap : Nat} {st : ServerState} {k : String}
    {v : Envelope} (hkfresh : ∀ q ∈ st.content_cache, q.1 ≠ k) :
    (cache_put cap st k v).content_cache =
      (st.content_cache ++ [(k, v)]).drop
        ((st.content_cache.length + 1) - cap) := by
  unfold cache_put moveEndL
  simp only [filter_ne_eq_self hkfresh]
  rw [evictLoop_eq_drop]
  simp [List.length_append]

theorem putList_fresh (cap : Nat) :
    ∀ (kvs : List (String × Envelope)) (st : ServerState),
    (∀ p ∈ kvs, ∀ q ∈ st.content_cache, p.1 ≠ q.1) →
    (kvs.map Prod.fst).Nodup →
    st.content_cache.length ≤ cap →
    (putList cap st kvs).content_cache =
      (st.content_cache ++ kvs).drop
        ((st.content_cache.length + kvs.length) - cap) ∧
    (putList cap st kvs).cache_misses = st.cache_misses + kvs.length ∧
    (putList cap st kvs).cache_hits = st.cache_hits := by
  intro kvs
  induction kvs with
  | nil =>
    intro st _ _ hlen
    refine ⟨?_, rfl, rfl⟩
    simp only [putList, List.append_nil, List.length_nil, Nat.add_zero]
    have h0 : st.content_cache.length - cap = 0 := by omega
    rw [h0, List.drop_zero]
  | cons kv rest ih =>
    intro st hdisj hnd hlen
    obtain ⟨k, v⟩ := kv
    have hkfresh : ∀ q ∈ st.content_cache, q.1 ≠ k := by
      intro q hq
      exact fun e => (hdisj (k, v) (List.mem_cons_self _ _) q hq) e.symm
    have hput := @cache_put_cache_fresh cap st k v hkfresh
    rw [List.map_cons] at hnd
    have hnodup := List.nodup_cons.mp hnd
    have hknotrest : ∀ p ∈ rest, p.1 ≠ k := by
      intro p hp he
      have hmm : p.1 ∈ rest.map Prod.fst := List.mem_map_of_mem Prod.fst hp
      exact hnodup.1 (he ▸ hmm)
    have hdisj' : ∀ p ∈ rest, ∀ q ∈ (cache_put cap st k v).content_cache,
        p.1 ≠ q.1 := by
      intro p hp q hq
      rw [hput] at hq
      have hq2 := List.mem_of_mem_drop hq
      rcases List.mem_append.mp hq2 with h1 | h2
      · exact hdisj p (List.mem_cons_of_mem _ hp) q h1
      · have hq3 : q = (k, v) := by simpa using h2
        rw [hq3]
        exact hknotrest p hp
    have hlen' : (cache_put cap st k v).content_cache.length ≤ cap := by
      rw [hput]
      simp only [List.length_drop, List.length_append, List.length_singleton]
      omega
    obtain ⟨ihc, ihm, ihh⟩ := ih (cache_put cap st k v) hdisj' hnodup.2 hlen'
    refine ⟨?_, ?_, ?_⟩
    · show (putList cap (cache_put cap st k v) rest).content_cache = _
      rw [ihc, hput]
      have hd1 : (st.content_cache.length + 1) - cap ≤
          (st.content_cache ++ [(k, v)]).length := by
        simp only [List.length_append, List.length_cons, List.length_nil]
        omega
      rw [← List.drop_append_of_le_length hd1]
      rw [List.drop_drop]
      have harr : (st.content_cache ++ [(k, v)]) ++ rest =
          st.content_cache ++ (k, v) :: rest := by
        simp
      rw [harr]
      congr 1
      simp only [List.length_drop, List.length_append, List.length_cons,
        List.length_nil]
      omega
    · show (putList cap (cache_put cap st k v) rest).cache_misses = _
      rw [ihm, cache_put_misses]
      simp only [List.length_cons]
      omega
    · show (putList cap (cache_put cap st k v) rest).cache_hits = _
      rw [ihh, cache_put_hits]

theorem protect_scenario {cap : Nat} {st : ServerState} {k0 k1 kn : String}
    {v0 v1 vn : Envelope} {rest : List (String × Envelope)}
    (hc : st.content_cache = (k0, v0) :: (k1, v1) :: rest)
    (hnd : (st.content_cache.map Prod.fst).Nodup)
    (hfresh : ∀ p ∈ st.content_cache, p.1 ≠ kn)
    (hlen : st.content_cache.length = cap) :
    (cache_put cap (cache_get st k0).2 kn vn).content_cache =
      rest ++ [(k0, v0), (kn, vn)] ∧
    List.lookup k0
      (cache_put cap (cache_get st k0).2 kn vn).content_cache = some v0 ∧
    List.lookup k1
      (cache_put cap (cache_get st k0).2 kn vn).content_cache = none := by
  rw [hc, List.map_cons, List.map_cons] at hnd
  have h0 := List.nodup_cons.mp hnd
  have h1 := List.nodup_cons.mp h0.2
  have h01 : k0 ≠ k1 := fun e => h0.1 (by rw [e]; exact List.mem_cons_self _ _)
  have h0r : k0 ∉ rest.map Prod.fst := fun hm =>
    h0.1 (List.mem_cons_of_mem _ hm)
  have h1r : k1 ∉ rest.map Prod.fst := h1.1
  have hrk0 : ∀ p ∈ rest, p.1 ≠ k0 := by
    intro p hp he
    exact h0r (he ▸ (List.mem_map_of_mem Prod.fst hp : p.1 ∈ rest.map Prod.fst))
  have hrk1 : ∀ p ∈ rest, p.1 ≠ k1 := by
    intro p hp he
    exact h1r (he ▸ (List.mem_map_of_mem Prod.fst hp : p.1 ∈ rest.map Prod.fst))
  have hlk : List.lookup k0 st.content_cache = some v0 := by
    rw [hc]; simp [List.lookup_cons]
  have hget : (cache_get st k0).2.content_cache =
      (k1, v1) :: (rest ++ [(k0, v0)]) := by
    unfold cache_get
    rw [hlk]
    simp only [moveEndL, hc]
    rw [List.filter_cons, List.filter_cons]
    rw [if_neg (by simp), if_pos (by simpa using h01.symm)]
    rw [filter_ne_eq_self hrk0]
    simp
  have hfresh1 : ∀ q ∈ (cache_get st k0).2.content_cache, q.1 ≠ kn := by
    intro q hq
    rw [hget] at hq
    have hq' : q ∈ st.content_cache := by
      rw [hc]
      rcases List.mem_cons.mp hq with h | h
      · rw [h]; exact List.mem_cons_of_mem _ (List.mem_cons_self _ _)
      · rcases List.mem_append.mp h with h2 | h2
        · exact List.mem_cons_of_mem _ (List.mem_cons_of_mem _ h2)
        · rw [show q = (k0, v0) by simpa using h2]
          exact List.mem_cons_self _ _
    exact hfresh q hq'
  have hlen1 : (cache_get st k0).2.content_cache.length = cap := by
    rw [hget]
    have h2r : st.content_cache.length = 2 + rest.length := by
      rw [hc]; simp only [List.length_cons]; omega
    simp only [List.length_cons, List.length_append, List.length_nil]
    omega
  have hres : (cache_put cap (cache_get st k0).2 kn vn).content_cache =
      rest ++ [(k0, v0), (kn, vn)] := by
    rw [cache_put_cache_fresh hfresh1, hget]
    have hidx : ((k1, v1) :: (rest ++ [(k0, v0)])).length + 1 - cap = 1 := by
      rw [← hget, hlen1]; omega
    rw [hidx]
    simp [List.cons_append, List.drop_succ_cons]
  refine ⟨hres, ?_, ?_⟩
  · rw [hres]
    rw [lookup_append_none (lookup_eq_none_of_keys hrk0)]
    simp [List.lookup_cons]
  · rw [hres]
    rw [lookup_append_none (lookup_eq_none_of_keys hrk1)]
    have e0 : (k1 == k0) = false := by
      simp only [beq_eq_false_iff_ne, ne_eq]; exact h01.symm
    have e1 : (k1 == kn) = false := by
      simp only [beq_eq_false_iff_ne, ne_eq]
      exact hfresh (k1, v1) (by rw [hc]; simp)
    simp [List.lookup_cons, e0, e1]

theorem putSame_state (cap : Nat) (k : String) (v : Envelope) :
    ∀ (n : Nat) (st : ServerState),
    (putSame cap k v n st).cache_misses = st.cache_misses + n ∧
    (putSame cap k v n st).cache_hits = st.cache_hits ∧
    (1 ≤ n → 1 ≤ cap →
      List.lookup k (putSame cap k v n st).content_cache = some v) := by
  intro n
  induction n with
  | zero => intro st; exact ⟨rfl, rfl, fun h _ => absurd h (by omega)⟩
  | succ n ih =>
    intro st
    obtain ⟨ihm, ihh, ihl⟩ := ih (cache_put cap st k v)
    refine ⟨?_, ?_, ?_⟩
    · show (putSame cap k v n (cache_put cap st k v)).cache_misses = _
      rw [ihm, cache_put_misses]; omega
    · show (putSame cap k v n (cache_put cap st k v)).cache_hits = _
      rw [ihh, cache_put_hits]
    · intro _ hcap
      cases n with
      | zero => exact lookup_cache_put_self hcap
      | succ m => exact ihl (by omega) hcap

theorem cache_get_present {st : ServerState} {k : String} {v : Envelope}
    (h : List.lookup k st.content_cache = some v) :
    cache_get st k = (some v,
      { st with content_cache := moveEndL st.content_cache k v,
                cache_hits := st.cache_hits + 1 }) := by
  unfold cache_get
  rw [h]

theorem cache_get_absent {st : ServerState} {k : String}
    (h : List.lookup k st.content_cache = none) :
    cache_get st k = (none, st) := by
  unfold cache_get
  rw [h]

theorem getSame_state (k : String) :
    ∀ (m : Nat) (st : ServerState) (v : Envelope),
    List.lookup k st.content_cache = some v →
    (getSame k m st).cache_hits = st.cache_hits + m ∧
    (getSame k m st).cache_misses = st.cache_misses ∧
    List.lookup k (getSame k m st).content_cache = some v := by
  intro m
  induction m with
  | zero => intro st v h; exact ⟨rfl, rfl, h⟩
  | succ m ih =>
    intro st v h
    have hstep := cache_get_present h
    have hnext : List.lookup k (cache_get st k).2.content_cache = some v := by
      rw [hstep]
      exact lookup_moveEndL_self
    obtain ⟨ihh, ihm, ihl⟩ := ih (cache_get st k).2 v hnext
    refine ⟨?_, ?_, ihl⟩
    · show (getSame k m (cache_get st k).2).cache_hits = _
      rw [ihh, hstep]
      show st.cache_hits + 1 + m = st.cache_hits + (m + 1)
      omega
    · show (getSame k m (cache_get st k).2).cache_misses = _
      rw [ihm, hstep]

/-! ## Claim C3: bounded LRU eviction -/

/-- C3: after any put the cache holds at most the configured capacity of
entries; inserting capacity+1 distinct keys into an empty cache evicts
exactly the first-inserted (least-recently-used) key, keeping all the others
in order; and a get on the least-recently-used key immediately before the
eviction-triggering put moves that key to the most-recently-used end and
protects it, the eviction falling on the next least-recently-used entry
instead. -/
theorem c3_lru_bound_eviction_protection :
    (∀ (cap : Nat) (st : ServerState) (k : String) (v : Envelope),
      (cache_put cap st k v).content_cache.length ≤ cap) ∧
    (∀ (cap : Nat) (kvs : List (String × Envelope)),
      (kvs.map Prod.fst).Nodup → kvs.length = cap + 1 →
      (putList cap initState kvs).content_cache = kvs.drop 1) ∧
    (∀ (cap : Nat) (st : ServerState) (k0 k1 kn : String)
      (v0 v1 vn : Envelope) (rest : List (String × Envelope)),
      st.content_cache = (k0, v0) :: (k1, v1) :: rest →
      (st.content_cache.map Prod.fst).Nodup →
      (∀ p ∈ st.content_cache, p.1 ≠ kn) →
      st.content_cache.length = cap →
      (cache_put cap (cache_get st k0).2 kn vn).content_cache =
        rest ++ [(k0, v0), (kn, vn)] ∧
      List.lookup k0
        (cache_put cap (cache_get st k0).2 kn vn).content_cache = some v0 ∧
      List.lookup k1
        (cache_put cap (cache_get st k0).2 kn vn).content_cache = none) := by
  refine ⟨?_, ?_, ?_⟩
  · intro cap st k v
    show (evictLoop cap (moveEndL st.content_cache k v)).length ≤ cap
    exact length_evictLoop_le cap _
  · intro cap kvs hnd hlen
    obtain ⟨hc, _, _⟩ := putList_fresh cap kvs initState
      (by intro p _ q hq; simp [initState] at hq) hnd
      (by simp [initState])
    rw [hc]
    have h1 : initState.content_cache.length + kvs.length - cap = 1 := by
      simp only [initState]
      simp only [List.length_nil]
      omega
    rw [h1]
    simp [initState]
  · intro cap st k0 k1 kn v0 v1 vn rest hc hnd hfresh hlen
    exact protect_scenario hc hnd hfresh hlen

/-- Concrete instantiation of the three parts of the C3 theorem: a put on a
two-entry cache with capacity 2 stays within bound; two distinct keys pushed
through a capacity-1 cache leave only the second; and with capacity 2,
getting the least-recently-used key "a" right before inserting the fresh key
"c" protects "a" and evicts "b". -/
theorem c3_witness :
    (cache_put 2 initState "k" envA).content_cache.length ≤ 2 ∧
    (putList 1 initState [("a", envA), ("b", envB)]).content_cache =
      [("b", envB)] ∧
    ((cache_put 2 (cache_get ⟨[("a", envA), ("b", envB)], 0, 0, 0, 0⟩ "a").2
        "c" envA).content_cache = [("a", envA), ("c", envA)] ∧
      List.lookup "a" (cache_put 2
        (cache_get ⟨[("a", envA), ("b", envB)], 0, 0, 0, 0⟩ "a").2
        "c" envA).content_cache = some envA ∧
      List.lookup "b" (cache_put 2
        (cache_get ⟨[("a", envA), ("b", envB)], 0, 0, 0, 0⟩ "a").2
        "c" envA).content_cache = none) :=
  ⟨c3_lru_bound_eviction_protection.1 2 initState "k" envA,
   c3_lru_bound_eviction_protection.2.1 1 [("a", envA), ("b", envB)]
     (by decide) rfl,
   c3_lru_bound_eviction_protection.2.2 2
     ⟨[("a", envA), ("b", envB)], 0, 0, 0, 0⟩ "a" "b" "c" envA envB envA []
     rfl (by decide) (by decide) rfl⟩

/-! ## Claim C4: hit/miss accounting -/

/-- C4 counterexample: the claim says a cache get on an absent key increments
the miss counter, so two absent-key gets, one put and two hits on the same key
should report misses = 2.  In the code the miss counter is incremented by
_cache_put, not by an absent-key _cache_get, so the scenario reports
misses = 1 (and hits = 2), refuting the claim at this concrete input. -/
theorem c4_counterexample :
    (health 256 true "m" 0
      (getSame "k" 2 (cache_put 256
        (getSame "k" 2 initState) "k" envA))).cache.misses = 1 ∧
    ¬ (health 256 true "m" 0
      (getSame "k" 2 (cache_put 256
        (getSame "k" 2 initState) "k" envA))).cache.misses = 2 ∧
    (health 256 true "m" 0
      (getSame "k" 2 (cache_put 256
        (getSame "k" 2 initState) "k" envA))).cache.hits = 2 := by
  refine ⟨rfl, ?_, rfl⟩
  intro h
  exact absurd (show (1 : Nat) = 2 from h) (by omega)

/-- C4 (amended): a get on a present key increments the hit counter, leaves
the miss counter unchanged and marks the key most recently used; a get on an
absent key returns nothing and leaves the state (both counters included)
unchanged; a put increments the miss counter, so the miss counter counts
model-invoking requests rather than absent-key lookups; and after N puts of a
key followed by M gets of that key from a fresh process state the health
endpoint reports hits = M, misses = N and
hit_rate = round₃(M / (M + N)). -/
theorem c4_hit_miss_accounting :
    (∀ (st : ServerState) (k : String) (v : Envelope),
      List.lookup k st.content_cache = some v →
      (cache_get st k).1 = some v ∧
      (cache_get st k).2.cache_hits = st.cache_hits + 1 ∧
      (cache_get st k).2.cache_misses = st.cache_misses ∧
      (cache_get st k).2.content_cache.getLast? = some (k, v)) ∧
    (∀ (st : ServerState) (k : String),
      List.lookup k st.content_cache = none →
      cache_get st k = (none, st)) ∧
    (∀ (cap : Nat) (st : ServerState) (k : String) (v : Envelope),
      (cache_put cap st k v).cache_misses = st.cache_misses + 1 ∧
      (cache_put cap st k v).cache_hits = st.cache_hits) ∧
    (∀ (cap N M : Nat) (k : String) (v : Envelope) (ld : Bool)
      (modelId : String) (lt : ℚ),
      1 ≤ N → 1 ≤ cap →
      (health cap ld modelId lt
        (getSame k M (putSame cap k v N initState))).cache.hits = M ∧
      (health cap ld modelId lt
        (getSame k M (putSame cap k v N initState))).cache.misses = N ∧
      (health cap ld modelId lt
        (getSame k M (putSame cap k v N initState))).cache.hit_rate =
        roundTo 3 ((M : ℚ) / ((M + N : Nat) : ℚ))) := by
  refine ⟨?_, ?_, ?_, ?_⟩
  · intro st k v h
    rw [cache_get_present h]
    refine ⟨rfl, rfl, rfl, ?_⟩
    show (moveEndL st.content_cache k v).getLast? = some (k, v)
    unfold moveEndL
    exact List.getLast?_concat _
  · intro st k h
    exact cache_get_absent h
  · intro cap st k v
    exact ⟨cache_put_misses cap st k v, cache_put_hits cap st k v⟩
  · intro cap N M k v ld modelId lt hN hcap
    obtain ⟨hpm, hph, hpl⟩ := putSame_state cap k v N initState
    obtain ⟨hgh, hgm, _⟩ := getSame_state k M (putSame cap k v N initState) v
      (hpl hN hcap)
    have hhits : (getSame k M (putSame cap k v N initState)).cache_hits = M := by
      rw [hgh, hph]
      show initState.cache_hits + M = M
      simp [initState]
    have hmisses :
        (getSame k M (putSame cap k v N initState)).cache_misses = N := by
      rw [hgm, hpm]
      show initState.cache_misses + N = N
      simp [initState]
    refine ⟨?_, ?_, ?_⟩
    · show (getSame k M (putSame cap k v N initState)).cache_hits = M
      exact hhits
    · show (getSame k M (putSame cap k v N initState)).cache_misses = N
      exact hmisses
    · show roundTo 3
        (((getSame k M (putSame cap k v N initState)).cache_hits : ℚ) /
          ((max 1 ((getSame k M (putSame cap k v N initState)).cache_hits +
            (getSame k M (putSame cap k v N initState)).cache_misses) :
            Nat) : ℚ)) = _
      rw [hhits, hmisses]
      have hmax : max 1 (M + N) = M + N := by omega
      rw [hmax]

/-- Concrete instantiation of the four parts of the amended C4 theorem, with
N = 2 puts and M = 3 hits. -/
theorem c4_witness :
    ((cache_get ⟨[("k", envA)], 0, 0, 0, 0⟩ "k").1 = some envA ∧
      (cache_get ⟨[("k", envA)], 0, 0, 0, 0⟩ "k").2.cache_hits = 0 + 1 ∧
      (cache_get ⟨[("k", envA)], 0, 0, 0, 0⟩ "k").2.cache_misses = 0 ∧
      (cache_get ⟨[("k", envA)], 0, 0, 0, 0⟩
        "k").2.content_cache.getLast? = some ("k", envA)) ∧
    cache_get initState "q" = (none, initState) ∧
    ((cache_put 5 initState "k" envA).cache_misses = 0 + 1 ∧
      (cache_put 5 initState "k" envA).cache_hits = 0) ∧
    ((health 4 true "m" 0
        (getSame "k" 3 (putSame 4 "k" envA 2 initState))).cache.hits = 3 ∧
      (health 4 true "m" 0
        (getSame "k" 3 (putSame 4 "k" envA 2 initState))).cache.misses = 2 ∧
      (health 4 true "m" 0
        (getSame "k" 3 (putSame 4 "k" envA 2 initState))).cache.hit_rate =
        roundTo 3 ((3 : ℚ) / ((3 + 2 : Nat) : ℚ))) :=
  ⟨c4_hit_miss_accounting.1 ⟨[("k", envA)], 0, 0, 0, 0⟩ "k" envA rfl,
   c4_hit_miss_accounting.2.1 initState "q" rfl,
   c4_hit_miss_accounting.2.2.1 5 initState "k" envA,
   c4_hit_miss_accounting.2.2.2 4 2 3 "k" envA true "m" 0
     (by omega) (by omega)⟩

/-! ## Claim C10: the hit rate is always well defined -/

/-- C10: the health endpoint's hit-rate computation divides by the clamped
denominator max 1 (hits + misses), so for every state the reported hit rate
is a well-defined rational between 0 and 1, and when both counters are zero
it is exactly 0. -/
theorem c10_hit_rate_total :
    (∀ (cap : Nat) (ld : Bool) (modelId : String) (lt : ℚ)
      (st : ServerState),
      0 ≤ (health cap ld modelId lt st).cache.hit_rate ∧
      (health cap ld modelId lt st).cache.hit_rate ≤ 1) ∧
    (∀ (cap : Nat) (ld : Bool) (modelId : String) (lt : ℚ)
      (st : ServerState),
      st.cache_hits = 0 → st.cache_misses = 0 →
      (health cap ld modelId lt st).cache.hit_rate = 0) := by
  constructor
  · intro cap ld modelId lt st
    show 0 ≤ roundTo 3 ((st.cache_hits : ℚ) /
        ((max 1 (st.cache_hits + st.cache_misses) : Nat) : ℚ)) ∧
      roundTo 3 ((st.cache_hits : ℚ) /
        ((max 1 (st.cache_hits + st.cache_misses) : Nat) : ℚ)) ≤ 1
    set q : ℚ := (st.cache_hits : ℚ) /
      ((max 1 (st.cache_hits + st.cache_misses) : Nat) : ℚ) with hq
    have hden : (0 : ℚ) < ((max 1 (st.cache_hits + st.cache_misses) : Nat) : ℚ) := by
      have h1 : 1 ≤ max 1 (st.cache_hits + st.cache_misses) := le_max_left _ _
      exact_mod_cast Nat.lt_of_lt_of_le Nat.zero_lt_one h1
    have hq0 : 0 ≤ q := by
      rw [hq]
      exact div_nonneg (by exact_mod_cast Nat.zero_le _) (le_of_lt hden)
    have hq1 : q ≤ 1 := by
      rw [hq]
      rw [div_le_one hden]
      have hle : st.cache_hits ≤ max 1 (st.cache_hits + st.cache_misses) := by
        omega
      exact_mod_cast hle
    constructor
    · show (0 : ℚ) ≤ (round (q * (10 : ℚ) ^ 3) : ℚ) / (10 : ℚ) ^ 3
      apply div_nonneg _ (by norm_num)
      have : (0 : ℤ) ≤ round (q * (10 : ℚ) ^ 3) := by
        rw [round_eq]
        have : (0 : ℤ) = ⌊(0 : ℚ) + 1/2⌋ := by norm_num
        rw [this]
        apply Int.floor_le_floor
        nlinarith
      exact_mod_cast this
    · show (round (q * (10 : ℚ) ^ 3) : ℚ) / (10 : ℚ) ^ 3 ≤ 1
      rw [div_le_one (by norm_num : (0 : ℚ) < (10 : ℚ) ^ 3)]
      have hr : round (q * (10 : ℚ) ^ 3) ≤ 1000 := by
        rw [round_eq]
        have h1000 : (1000 : ℤ) = ⌊(1000 : ℚ) + 1/2⌋ := by norm_num
        rw [h1000]
        apply Int.floor_le_floor
        nlinarith
      calc (round (q * (10 : ℚ) ^ 3) : ℚ) ≤ (1000 : ℚ) := by exact_mod_cast hr
        _ = (10 : ℚ) ^ 3 := by norm_num
  · intro cap ld modelId lt st h0 hm
    show roundTo 3 ((st.cache_hits : ℚ) /
        ((max 1 (st.cache_hits + st.cache_misses) : Nat) : ℚ)) = 0
    rw [h0, hm]
    norm_num [roundTo, round_eq]

/-- Concrete instantiation of both parts of the C10 theorem at the fresh
process state. -/
theorem c10_witness :
    (0 ≤ (health 256 true "m" 0 initState).cache.hit_rate ∧
      (health 256 true "m" 0 initState).cache.hit_rate ≤ 1) ∧
    (health 256 true "m" 0 initState).cache.hit_rate = 0 :=
  ⟨c10_hit_rate_total.1 256 true "m" 0 initState,
   c10_hit_rate_total.2 256 true "m" 0 initState rfl rfl⟩

/-! ## Path equations for the extract endpoint -/

theorem extract_not_loaded (oracle : Oracle) (cap : Nat) (st : ServerState)
    (req : ExtractRequest) :
    extract oracle false cap st req = (.fail 503 "Model not loaded", st) :=
  rfl

theorem extract_bad_b64 {oracle : Oracle} {cap : Nat} {st : ServerState}
    {req : ExtractRequest} (h : b64decode req.image = none) :
    extract oracle true cap st req =
      (.fail 400 "Invalid base64 image data", st) := by
  unfold extract
  rw [if_neg (by simp)]
  rw [h]

theorem extract_hit {oracle : Oracle} {cap : Nat} {st : ServerState}
    {req : ExtractRequest} {bs : List Nat} {env : Envelope}
    (hb : b64decode req.image = some bs)
    (hc : List.lookup (sha256hex bs) st.content_cache = some env) :
    extract oracle true cap st req =
      (.ok ⟨env, "hit", String.mk ((sha256hex bs).toList.take 16)⟩,
       { st with content_cache := moveEndL st.content_cache (sha256hex bs) env,
                 cache_hits := st.cache_hits + 1 }) := by
  unfold extract
  rw [if_neg (by simp)]
  rw [hb]
  show (match cache_get st (sha256hex bs) with
    | (some cachedEnv, st1) =>
      (ExtractResult.ok
        ⟨cachedEnv, "hit", String.mk ((sha256hex bs).toList.take 16)⟩, st1)
    | (none, st1) => _) = _
  rw [cache_get_present hc]

theorem extract_miss_done {oracle : Oracle} {cap : Nat} {st : ServerState}
    {req : ExtractRequest} {bs : List Nat} {raw : GenResult}
    {ext : Option Json} {fh : Bool}
    (hb : b64decode req.image = some bs)
    (hr : oracle bs (req.prompt.getD EXTRACT_SYSTEM_PROMPT) req.max_tokens = raw)
    (hc : List.lookup (sha256hex bs) st.content_cache = none)
    (he : enrichStep (parseModelText raw.text.toList) = .done ext fh) :
    extract oracle true cap st req =
      (.ok ⟨⟨"ok", ext, raw.text, raw.stats⟩, "miss",
        String.mk ((sha256hex bs).toList.take 16)⟩,
       if ext.isSome then
         cache_put cap (fpBump fh { st with model_calls := st.model_calls + 1 })
           (sha256hex bs) ⟨"ok", ext, raw.text, raw.stats⟩
       else fpBump fh { st with model_calls := st.model_calls + 1 }) := by
  unfold extract
  rw [if_neg (by simp)]
  rw [hb]
  show (match cache_get st (sha256hex bs) with
    | (some cachedEnv, st1) =>
      (ExtractResult.ok
        ⟨cachedEnv, "hit", String.mk ((sha256hex bs).toList.take 16)⟩, st1)
    | (none, st1) => _) = _
  rw [cache_get_absent hc]
  simp only [hr, he, fpBump]

theorem extract_raised {oracle : Oracle} {cap : Nat} {st : ServerState}
    {req : ExtractRequest} {bs : List Nat} {raw : GenResult}
    (hb : b64decode req.image = some bs)
    (hr : oracle bs (req.prompt.getD EXTRACT_SYSTEM_PROMPT) req.max_tokens = raw)
    (hc : List.lookup (sha256hex bs) st.content_cache = none)
    (he : enrichStep (parseModelText raw.text.toList) = .raised) :
    extract oracle true cap st req =
      (.fail 500 "AttributeError",
       { st with model_calls := st.model_calls + 1 }) := by
  unfold extract
  rw [if_neg (by simp)]
  rw [hb]
  show (match cache_get st (sha256hex bs) with
    | (some cachedEnv, st1) =>
      (ExtractResult.ok
        ⟨cachedEnv, "hit", String.mk ((sha256hex bs).toList.take 16)⟩, st1)
    | (none, st1) => _) = _
  rw [cache_get_absent hc]
  simp only [hr, he]

/-- Exhaustive case analysis of one extract call: exactly one of the five
paths is taken. -/
theorem extract_shape (oracle : Oracle) (ld : Bool) (cap : Nat)
    (st : ServerState) (req : ExtractRequest) :
    (ld = false ∧
      extract oracle ld cap st req = (.fail 503 "Model not loaded", st)) ∨
    (ld = true ∧ b64decode req.image = none ∧
      extract oracle ld cap st req =
        (.fail 400 "Invalid base64 image data", st)) ∨
    (ld = true ∧ ∃ bs env, b64decode req.image = some bs ∧
      List.lookup (sha256hex bs) st.content_cache = some env ∧
      extract oracle ld cap st req =
        (.ok ⟨env, "hit", String.mk ((sha256hex bs).toList.take 16)⟩,
         { st with
            content_cache := moveEndL st.content_cache (sha256hex bs) env,
            cache_hits := st.cache_hits + 1 })) ∨
    (ld = true ∧ ∃ bs raw, b64decode req.image = some bs ∧
      oracle bs (req.prompt.getD EXTRACT_SYSTEM_PROMPT) req.max_tokens = raw ∧
      List.lookup (sha256hex bs) st.content_cache = none ∧
      enrichStep (parseModelText raw.text.toList) = .raised ∧
      extract oracle ld cap st req =
        (.fail 500 "AttributeError",
         { st with model_calls := st.model_calls + 1 })) ∨
    (ld = true ∧ ∃ bs raw ext fh, b64decode req.image = some bs ∧
      oracle bs (req.prompt.getD EXTRACT_SYSTEM_PROMPT) req.max_tokens = raw ∧
      List.lookup (sha256hex bs) st.content_cache = none ∧
      enrichStep (parseModelText raw.text.toList) = .done ext fh ∧
      extract oracle ld cap st req =
        (.ok ⟨⟨"ok", ext, raw.text, raw.stats⟩, "miss",
          String.mk ((sha256hex bs).toList.take 16)⟩,
         if ext.isSome then
           cache_put cap
             (fpBump fh { st with model_calls := st.model_calls + 1 })
             (sha256hex bs) ⟨"ok", ext, raw.text, raw.stats⟩
         else fpBump fh { st with model_calls := st.model_calls + 1 })) := by
  cases ld with
  | false => exact Or.inl ⟨rfl, extract_not_loaded oracle cap st req⟩
  | true =>
    cases hb : b64decode req.image with
    | none => exact Or.inr (Or.inl ⟨rfl, rfl, extract_bad_b64 hb⟩)
    | some bs =>
      cases hc : List.lookup (sha256hex bs) st.content_cache with
      | some env =>
        exact Or.inr (Or.inr (Or.inl ⟨rfl, bs, env, rfl, hc, extract_hit hb hc⟩))
      | none =>
        cases he : enrichStep (parseModelText
            (oracle bs (req.prompt.getD EXTRACT_SYSTEM_PROMPT)
              req.max_tokens).text.toList) with
        | raised =>
          exact Or.inr (Or.inr (Or.inr (Or.inl ⟨rfl, bs, _, rfl, rfl, hc, he,
            extract_raised hb rfl hc he⟩)))
        | done ext fh =>
          exact Or.inr (Or.inr (Or.inr (Or.inr ⟨rfl, bs, _, ext, fh, rfl, rfl,
            hc, he, extract_miss_done hb rfl hc he⟩)))

/-! ## Concrete collaborators and requests used to instantiate theorems -/

/-- A model whose output is not JSON at all. -/
def oracleBad : Oracle := fun _ _ _ => ⟨"not json", ⟨0, none, none⟩⟩

/-- A model whose output parses to an object with an unrecognized merchant. -/
def oracleGood : Oracle :=
  fun _ _ _ => ⟨"\x7b\"merchant\": \"zz\"\x7d", ⟨0, none, none⟩⟩

/-- A well-formed request (its image field decodes). -/
def reqA : ExtractRequest := ⟨"abc", "image/png", none, 1024⟩

/-- The response of a successful outcome (junk on a failure). -/
def respOf : ExtractResult → ExtractResponse
  | .ok r => r
  | .fail _ _ => ⟨⟨"", none, "", ⟨0, none, none⟩⟩, "", ""⟩

/-- The cache provenance tag of an outcome, if it succeeded. -/
def cacheTagOf : ExtractResult → Option String
  | .ok r => some r.cache
  | .fail _ _ => none

/-! ## Claim C1: idempotence of extract via the content cache -/

/-- C1 counterexample: for an image whose model output does not parse, the
first call leaves the cache unpopulated, so the second call with the very
same bytes invokes the model again (the invocation count rises from 1 to 2)
and is tagged "miss", not "hit" — refuting the claim as stated, which asserts
this for every image byte sequence. -/
theorem c1_counterexample :
    (extract oracleBad true 256 initState reqA).2.model_calls = 1 ∧
    (extract oracleBad true 256
      (extract oracleBad true 256 initState reqA).2 reqA).2.model_calls = 2 ∧
    cacheTagOf (extract oracleBad true 256
      (extract oracleBad true 256 initState reqA).2 reqA).1 = some "miss" ∧
    ¬ cacheTagOf (extract oracleBad true 256
      (extract oracleBad true 256 initState reqA).2 reqA).1 = some "hit" := by
  refine ⟨rfl, rfl, rfl, ?_⟩
  intro h
  have h2 : some "miss" = some "hit" := h
  simp at h2

/-- C1 (amended): for every image byte sequence whose first extract call
succeeds with a non-null extraction, a second call with the same bytes
returns an identical envelope (extraction, raw text, stats) and the same
content hash, is tagged "hit", and does not increase the model-invocation
count.  (When the first extraction is null the entry is never cached and the
claim fails: see the counterexample and the never-cache-null invariant.) -/
theorem c1_idempotence_when_parsed (oracle : Oracle) (ld : Bool) (cap : Nat)
    (st : ServerState) (req : ExtractRequest) (r1 : ExtractResponse)
    (s1 : ServerState) (hcap : 1 ≤ cap)
    (h1 : extract oracle ld cap st req = (.ok r1, s1))
    (hx : r1.body.extraction ≠ none) :
    ∃ r2 s2, extract oracle ld cap s1 req = (.ok r2, s2) ∧
      r2.body = r1.body ∧ r2.content_hash = r1.content_hash ∧
      r2.cache = "hit" ∧ s2.model_calls = s1.model_calls := by
  rcases extract_shape oracle ld cap st req with
    ⟨hld, heq⟩ | ⟨hld, hbn, heq⟩ | ⟨hld, bs, env, hb, hc, heq⟩ |
    ⟨hld, bs, raw, hb, hr, hc, hen, heq⟩ |
    ⟨hld, bs, raw, ext, fh, hb, hr, hc, hen, heq⟩
  · rw [heq] at h1
    exact absurd (congrArg Prod.fst h1) (by simp)
  · rw [heq] at h1
    exact absurd (congrArg Prod.fst h1) (by simp)
  · subst hld
    rw [heq] at h1
    have hr1 : r1 = ⟨env, "hit", String.mk ((sha256hex bs).toList.take 16)⟩ :=
      (ExtractResult.ok.inj (congrArg Prod.fst h1)).symm
    have hs1 : s1 = { st with
        content_cache := moveEndL st.content_cache (sha256hex bs) env,
        cache_hits := st.cache_hits + 1 } := (congrArg Prod.snd h1).symm
    have hc2 : List.lookup (sha256hex bs) s1.content_cache = some env := by
      rw [hs1]
      exact lookup_moveEndL_self
    refine ⟨_, _, extract_hit hb hc2, by rw [hr1], by rw [hr1], rfl, rfl⟩
  · subst hld
    rw [heq] at h1
    exact absurd (congrArg Prod.fst h1) (by simp)
  · subst hld
    rw [heq] at h1
    have hr1 : r1 = ⟨⟨"ok", ext, raw.text, raw.stats⟩, "miss",
        String.mk ((sha256hex bs).toList.take 16)⟩ :=
      (ExtractResult.ok.inj (congrArg Prod.fst h1)).symm
    have hext : ext.isSome = true := by
      rw [hr1] at hx
      exact Option.ne_none_iff_isSome.mp hx
    have hs1 : s1 = cache_put cap
        (fpBump fh { st with model_calls := st.model_calls + 1 })
        (sha256hex bs) ⟨"ok", ext, raw.text, raw.stats⟩ := by
      have := (congrArg Prod.snd h1).symm
      rwa [if_pos hext] at this
    have hc2 : List.lookup (sha256hex bs) s1.content_cache =
        some ⟨"ok", ext, raw.text, raw.stats⟩ := by
      rw [hs1]
      exact lookup_cache_put_self hcap
    refine ⟨_, _, extract_hit hb hc2, by rw [hr1], by rw [hr1], rfl, rfl⟩

/-- Concrete instantiation of the amended C1 theorem: a parseable model
output on a fresh state, called twice. -/
theorem c1_witness :
    ∃ r2 s2,
      extract oracleGood true 256
        (extract oracleGood true 256 initState reqA).2 reqA = (.ok r2, s2) ∧
      r2.body = (respOf (extract oracleGood true 256 initState reqA).1).body ∧
      r2.content_hash =
        (respOf (extract oracleGood true 256 initState reqA).1).content_hash ∧
      r2.cache = "hit" ∧
      s2.model_calls = (extract oracleGood true 256 initState reqA).2.model_calls :=
  c1_idempotence_when_parsed oracleGood true 256 initState reqA
    (respOf (extract oracleGood true 256 initState reqA).1)
    (extract oracleGood true 256 initState reqA).2
    (by omega) rfl (fun h => Option.noConfusion h)

/-! ## Claim C2: the never-cache-null invariant -/

/-- Every cached envelope has a non-null extraction. -/
def CacheNonNull (st : ServerState) : Prop :=
  ∀ p ∈ st.content_cache, p.2.extraction ≠ none

theorem mem_moveEndL {c : List (String × Envelope)} {k : String}
    {v : Envelope} {q : String × Envelope} (h : q ∈ moveEndL c k v) :
    q ∈ c ∨ q = (k, v) := by
  unfold moveEndL at h
  rcases List.mem_append.mp h with h1 | h2
  · exact Or.inl (List.mem_of_mem_filter h1)
  · exact Or.inr (by simpa using h2)

theorem fpBump_cache (b : Bool) (st : ServerState) :
    (fpBump b st).content_cache = st.content_cache := by
  cases b <;> rfl

theorem fpBump_model_calls (b : Bool) (st : ServerState) :
    (fpBump b st).model_calls = st.model_calls := by
  cases b <;> rfl

theorem cache_put_model_calls (cap : Nat) (st : ServerState) (k : String)
    (v : Envelope) : (cache_put cap st k v).model_calls = st.model_calls :=
  rfl

theorem cache_put_mem {cap : Nat} {st : ServerState} {k : String}
    {v : Envelope} {q : String × Envelope}
    (h : q ∈ (cache_put cap st k v).content_cache) :
    q ∈ st.content_cache ∨ q = (k, v) := by
  unfold cache_put at h
  exact mem_moveEndL (mem_evictLoop h)

/-- A cache-missing request whose model output fails to parse completes
successfully with a null extraction and changes nothing but the
model-invocation count. -/
theorem extract_parse_failure {oracle : Oracle} {cap : Nat}
    {st : ServerState} {req : ExtractRequest} {bs : List Nat} {raw : GenResult}
    (hb : b64decode req.image = some bs)
    (hr : oracle bs (req.prompt.getD EXTRACT_SYSTEM_PROMPT) req.max_tokens = raw)
    (hc : List.lookup (sha256hex bs) st.content_cache = none)
    (hp : parseModelText raw.text.toList = none) :
    extract oracle true cap st req =
      (.ok ⟨⟨"ok", none, raw.text, raw.stats⟩, "miss",
        String.mk ((sha256hex bs).toList.take 16)⟩,
       { st with model_calls := st.model_calls + 1 }) := by
  have he : enrichStep (parseModelText raw.text.toList) = .done none false := by
    rw [hp]
    rfl
  exact extract_miss_done hb hr hc he

/-- C2: a request whose model output fails to parse stores nothing — the
whole call returns a null-extraction envelope tagged "miss" and the only
state change is the model-invocation count; consequently the
all-cached-extractions-are-non-null invariant is preserved by every extract
call, every cache hit returns a non-null extraction, and repeating the same
bytes after a failed parse invokes the model a second time. -/
theorem c2_never_cache_null :
    (∀ (oracle : Oracle) (cap : Nat) (st : ServerState) (req : ExtractRequest)
      (bs : List Nat) (raw : GenResult),
      b64decode req.image = some bs →
      oracle bs (req.prompt.getD EXTRACT_SYSTEM_PROMPT) req.max_tokens = raw →
      List.lookup (sha256hex bs) st.content_cache = none →
      parseModelText raw.text.toList = none →
      extract oracle true cap st req =
        (.ok ⟨⟨"ok", none, raw.text, raw.stats⟩, "miss",
          String.mk ((sha256hex bs).toList.take 16)⟩,
         { st with model_calls := st.model_calls + 1 })) ∧
    (∀ (oracle : Oracle) (ld : Bool) (cap : Nat) (st : ServerState)
      (req : ExtractRequest),
      CacheNonNull st →
      CacheNonNull (extract oracle ld cap st req).2) ∧
    (∀ (oracle : Oracle) (ld : Bool) (cap : Nat) (st : ServerState)
      (req : ExtractRequest) (r : ExtractResponse) (s' : ServerState),
      CacheNonNull st →
      extract oracle ld cap st req = (.ok r, s') →
      r.cache = "hit" →
      r.body.extraction ≠ none) ∧
    (∀ (oracle : Oracle) (cap : Nat) (st : ServerState) (req : ExtractRequest)
      (bs : List Nat) (raw : GenResult),
      b64decode req.image = some bs →
      oracle bs (req.prompt.getD EXTRACT_SYSTEM_PROMPT) req.max_tokens = raw →
      List.lookup (sha256hex bs) st.content_cache = none →
      parseModelText raw.text.toList = none →
      (extract oracle true cap
        (extract oracle true cap st req).2 req).2.model_calls =
        st.model_calls + 2) := by
  have hparsefail : ∀ (oracle : Oracle) (cap : Nat) (st : ServerState)
      (req : ExtractRequest) (bs : List Nat) (raw : GenResult),
      b64decode req.image = some bs →
      oracle bs (req.prompt.getD EXTRACT_SYSTEM_PROMPT) req.max_tokens = raw →
      List.lookup (sha256hex bs) st.content_cache = none →
      parseModelText raw.text.toList = none →
      extract oracle true cap st req =
        (.ok ⟨⟨"ok", none, raw.text, raw.stats⟩, "miss",
          String.mk ((sha256hex bs).toList.take 16)⟩,
         { st with model_calls := st.model_calls + 1 }) :=
    fun oracle cap st req bs raw hb hr hc hp =>
      extract_parse_failure hb hr hc hp
  refine ⟨hparsefail, ?_, ?_, ?_⟩
  · intro oracle ld cap st req hinv
    rcases extract_shape oracle ld cap st req with
      ⟨hld, heq⟩ | ⟨hld, hbn, heq⟩ | ⟨hld, bs, env, hb, hc, heq⟩ |
      ⟨hld, bs, raw, hb, hr, hc, hen, heq⟩ |
      ⟨hld, bs, raw, ext, fh, hb, hr, hc, hen, heq⟩
    · rw [heq]; exact hinv
    · rw [heq]; exact hinv
    · rw [heq]
      intro q hq
      rcases mem_moveEndL hq with h1 | h2
      · exact hinv q h1
      · rw [h2]
        exact hinv (sha256hex bs, env) (lookup_mem hc)
    · rw [heq]; exact hinv
    · rw [heq]
      cases hext : ext.isSome with
      | false =>
        rw [if_neg Bool.false_ne_true]
        intro q hq
        rw [fpBump_cache] at hq
        exact hinv q hq
      | true =>
        rw [if_pos rfl]
        intro q hq
        rcases cache_put_mem hq with h1 | h2
        · rw [fpBump_cache] at h1
          exact hinv q h1
        · rw [h2]
          intro hnone
          rw [Option.eq_none_iff_forall_not_mem] at hnone
          cases hext2 : ext with
          | none => rw [hext2] at hext; exact Bool.false_ne_true hext
          | some j => exact hnone j (by rw [hext2]; rfl)
  · intro oracle ld cap st req r s' hinv h htag
    rcases extract_shape oracle ld cap st req with
      ⟨hld, heq⟩ | ⟨hld, hbn, heq⟩ | ⟨hld, bs, env, hb, hc, heq⟩ |
      ⟨hld, bs, raw, hb, hr, hc, hen, heq⟩ |
      ⟨hld, bs, raw, ext, fh, hb, hr, hc, hen, heq⟩
    · rw [heq] at h; exact absurd (congrArg Prod.fst h) (by simp)
    · rw [heq] at h; exact absurd (congrArg Prod.fst h) (by simp)
    · rw [heq] at h
      have hr1 : r = ⟨env, "hit", String.mk ((sha256hex bs).toList.take 16)⟩ :=
        (ExtractResult.ok.inj (congrArg Prod.fst h)).symm
      rw [hr1]
      exact hinv (sha256hex bs, env) (lookup_mem hc)
    · rw [heq] at h; exact absurd (congrArg Prod.fst h) (by simp)
    · rw [heq] at h
      have hr1 : r = ⟨⟨"ok", ext, raw.text, raw.stats⟩, "miss",
          String.mk ((sha256hex bs).toList.take 16)⟩ :=
        (ExtractResult.ok.inj (congrArg Prod.fst h)).symm
      rw [hr1] at htag
      exact absurd (show "miss" = "hit" from htag) (by decide)
  · intro oracle cap st req bs raw hb hr hc hp
    have h1 := hparsefail oracle cap st req bs raw hb hr hc hp
    have hs1 : (extract oracle true cap st req).2 =
        { st with model_calls := st.model_calls + 1 } := by
      rw [h1]
    rw [hs1]
    have hc2 : List.lookup (sha256hex bs)
        ({ st with model_calls := st.model_calls + 1 } :
          ServerState).content_cache = none := hc
    have h2 := hparsefail oracle cap
      { st with model_calls := st.model_calls + 1 } req bs raw hb hr hc2 hp
    rw [h2]

/-- Concrete instantiation of all four parts of the C2 theorem, with the
unparseable-output model on a fresh state. -/
theorem c2_witness :
    extract oracleBad true 256 initState reqA =
      (.ok ⟨⟨"ok", none, "not json", ⟨0, none, none⟩⟩, "miss",
        String.mk ((sha256hex ("abc".toList.map Char.toNat)).toList.take 16)⟩,
       { initState with model_calls := initState.model_calls + 1 }) ∧
    CacheNonNull (extract oracleBad true 256 initState reqA).2 ∧
    ((respOf (extract oracleGood true 256
        (extract oracleGood true 256 initState reqA).2 reqA).1).body.extraction
      ≠ none) ∧
    (extract oracleBad true 256
      (extract oracleBad true 256 initState reqA).2 reqA).2.model_calls =
      initState.model_calls + 2 := by
  refine ⟨?_, ?_, ?_, ?_⟩
  · exact c2_never_cache_null.1 oracleBad 256 initState reqA
      ("abc".toList.map Char.toNat) ⟨"not json", ⟨0, none, none⟩⟩ rfl rfl rfl rfl
  · exact c2_never_cache_null.2.1 oracleBad true 256 initState reqA
      (fun p hp => absurd hp (by simp [initState]))
  · refine c2_never_cache_null.2.2.1 oracleGood true 256
      (extract oracleGood true 256 initState reqA).2 reqA
      (respOf (extract oracleGood true 256
        (extract oracleGood true 256 initState reqA).2 reqA).1)
      (extract oracleGood true 256
        (extract oracleGood true 256 initState reqA).2 reqA).2 ?_ rfl rfl
    intro p hp
    have hmem : p ∈ [((sha256hex ("abc".toList.map Char.toNat)),
        (⟨"ok", some (Json.obj [("merchant", Json.str "zz")]),
          "\x7b\"merchant\": \"zz\"\x7d", ⟨0, none, none⟩⟩ : Envelope))] := hp
    rw [show p = ((sha256hex ("abc".toList.map Char.toNat)),
        (⟨"ok", some (Json.obj [("merchant", Json.str "zz")]),
          "\x7b\"merchant\": \"zz\"\x7d", ⟨0, none, none⟩⟩ : Envelope))
      from by simpa using hmem]
    exact fun h => Option.noConfusion h
  · exact c2_never_cache_null.2.2.2 oracleBad 256 initState reqA
      ("abc".toList.map Char.toNat) ⟨"not json", ⟨0, none, none⟩⟩ rfl rfl rfl rfl

/-! ## Claim C8: error taxonomy of extract -/

/-- A request whose image field is not decodable. -/
def reqBad : ExtractRequest := ⟨"!!!", "image/png", none, 1024⟩

/-- C8 counterexample: when the model is not loaded and the image also fails
to decode, extract fails with 503, not 400 — the model-readiness check runs
first — so "fails with a 400 client error exactly when the image cannot be
base64-decoded" is false at this input. -/
theorem c8_counterexample :
    b64decode reqBad.image = none ∧
    extract oracleBad false 256 initState reqBad =
      (.fail 503 "Model not loaded", initState) ∧
    ∀ d, ¬ (extract oracleBad false 256 initState reqBad).1 = .fail 400 d := by
  refine ⟨rfl, rfl, ?_⟩
  intro d h
  have h2 : ExtractResult.fail 503 "Model not loaded" = .fail 400 d := h
  exact absurd (ExtractResult.fail.inj h2).1 (by omega)

/-- C8 (amended): extract fails with 503 exactly when the model is not
loaded; when the model is loaded it fails with 400 exactly when the image
field cannot be base64-decoded (with the model not loaded, the 503 takes
precedence even over an undecodable image); and an unparseable model output
is never an error — the call completes with status "ok", a null extraction,
and the raw model text preserved. -/
theorem c8_error_taxonomy :
    (∀ (oracle : Oracle) (ld : Bool) (cap : Nat) (st : ServerState)
      (req : ExtractRequest),
      (∃ d, (extract oracle ld cap st req).1 = .fail 503 d) ↔ ld = false) ∧
    (∀ (oracle : Oracle) (cap : Nat) (st : ServerState)
      (req : ExtractRequest),
      (∃ d, (extract oracle true cap st req).1 = .fail 400 d) ↔
        b64decode req.image = none) ∧
    (∀ (oracle : Oracle) (cap : Nat) (st : ServerState) (req : ExtractRequest)
      (bs : List Nat) (raw : GenResult),
      b64decode req.image = some bs →
      oracle bs (req.prompt.getD EXTRACT_SYSTEM_PROMPT) req.max_tokens = raw →
      List.lookup (sha256hex bs) st.content_cache = none →
      parseModelText raw.text.toList = none →
      ∃ s', extract oracle true cap st req =
        (.ok ⟨⟨"ok", none, raw.text, raw.stats⟩, "miss",
          String.mk ((sha256hex bs).toList.take 16)⟩, s')) := by
  refine ⟨?_, ?_, ?_⟩
  · intro oracle ld cap st req
    constructor
    · rintro ⟨d, hd⟩
      cases ld with
      | false => rfl
      | true =>
        rcases extract_shape oracle true cap st req with
          ⟨hld, heq⟩ | ⟨_, hbn, heq⟩ | ⟨_, bs, env, hb, hc, heq⟩ |
          ⟨_, bs, raw, hb, hr, hc, hen, heq⟩ |
          ⟨_, bs, raw, ext, fh, hb, hr, hc, hen, heq⟩
        · exact Bool.noConfusion hld
        · rw [heq] at hd
          have h2 : ExtractResult.fail 400 "Invalid base64 image data" =
              .fail 503 d := hd
          exact absurd (ExtractResult.fail.inj h2).1 (by omega)
        · rw [heq] at hd
          exact ExtractResult.noConfusion
            (show ExtractResult.ok _ = .fail 503 d from hd)
        · rw [heq] at hd
          have h2 : ExtractResult.fail 500 "AttributeError" = .fail 503 d := hd
          exact absurd (ExtractResult.fail.inj h2).1 (by omega)
        · rw [heq] at hd
          exact ExtractResult.noConfusion
            (show ExtractResult.ok _ = .fail 503 d from hd)
    · intro hld
      subst hld
      exact ⟨"Model not loaded", rfl⟩
  · intro oracle cap st req
    constructor
    · rintro ⟨d, hd⟩
      rcases extract_shape oracle true cap st req with
        ⟨hld, heq⟩ | ⟨_, hbn, heq⟩ | ⟨_, bs, env, hb, hc, heq⟩ |
        ⟨_, bs, raw, hb, hr, hc, hen, heq⟩ |
        ⟨_, bs, raw, ext, fh, hb, hr, hc, hen, heq⟩
      · exact Bool.noConfusion hld
      · exact hbn
      · rw [heq] at hd
        exact ExtractResult.noConfusion
          (show ExtractResult.ok _ = .fail 400 d from hd)
      · rw [heq] at hd
        have h2 : ExtractResult.fail 500 "AttributeError" = .fail 400 d := hd
        exact absurd (ExtractResult.fail.inj h2).1 (by omega)
      · rw [heq] at hd
        exact ExtractResult.noConfusion
          (show ExtractResult.ok _ = .fail 400 d from hd)
    · intro hbn
      refine ⟨"Invalid base64 image data", ?_⟩
      rw [extract_bad_b64 hbn]
  · intro oracle cap st req bs raw hb hr hc hp
    exact ⟨_, extract_parse_failure hb hr hc hp⟩

/-- Concrete instantiation of the three parts of the amended C8 theorem. -/
theorem c8_witness :
    (∃ d, (extract oracleBad false 256 initState reqA).1 = .fail 503 d) ∧
    (∃ d, (extract oracleBad true 256 initState reqBad).1 = .fail 400 d) ∧
    (∃ s', extract oracleBad true 256 initState reqA =
      (.ok ⟨⟨"ok", none, "not json", ⟨0, none, none⟩⟩, "miss",
        String.mk ((sha256hex ("abc".toList.map Char.toNat)).toList.take 16)⟩,
       s')) :=
  ⟨(c8_error_taxonomy.1 oracleBad false 256 initState reqA).mpr rfl,
   (c8_error_taxonomy.2.1 oracleBad 256 initState reqBad).mpr rfl,
   c8_error_taxonomy.2.2 oracleBad 256 initState reqA
     ("abc".toList.map Char.toNat) ⟨"not json", ⟨0, none, none⟩⟩
     rfl rfl rfl rfl⟩

/-! ## Substring and first-match lemmas for the fast path -/

theorem prefixOf_true_iff : ∀ {l1 l2 : List Char},
    l1.isPrefixOf l2 = true ↔ l1 <+: l2 := by
  intro l1
  induction l1 with
  | nil =>
    intro l2
    simp [List.isPrefixOf]
  | cons a t ih =>
    intro l2
    cases l2 with
    | nil => simp [List.isPrefixOf]
    | cons b t2 =>
      simp only [List.isPrefixOf, Bool.and_eq_true, beq_iff_eq,
        List.cons_prefix_cons]
      exact and_congr Iff.rfl ih

theorem containsL_eq_true_iff : ∀ {s pat : List Char},
    containsL pat s = true ↔ pat <:+: s := by
  intro s
  induction s with
  | nil =>
    intro pat
    simp only [containsL, List.isEmpty_iff, List.infix_nil]
  | cons x t ih =>
    intro pat
    simp only [containsL, Bool.or_eq_true, List.infix_cons_iff]
    exact or_congr prefixOf_true_iff ih

theorem findRule_some_iff {low : List Char} :
    ∀ {rules : List (String × FastMeta)} {m : FastMeta},
    findRule low rules = some m ↔
    ∃ pre k post, rules = pre ++ (k, m) :: post ∧
      containsL k.toList low = true ∧
      ∀ p ∈ pre, containsL p.1.toList low = false := by
  intro rules
  induction rules with
  | nil =>
    intro m
    simp only [findRule]
    constructor
    · intro h; exact Option.noConfusion h
    · rintro ⟨pre, k, post, habs, -, -⟩
      cases pre with
      | nil => exact List.noConfusion habs
      | cons q pre' => exact List.noConfusion habs
  | cons r t ih =>
    intro m
    obtain ⟨k0, m0⟩ := r
    cases hc : containsL k0.toList low with
    | true =>
      rw [show findRule low ((k0, m0) :: t) = some m0 from by
        simp only [findRule]; rw [if_pos hc]]
      constructor
      · intro h
        have hm : m0 = m := Option.some_inj.mp h
        subst hm
        exact ⟨[], k0, t, rfl, hc, fun p hp => absurd hp (List.not_mem_nil p)⟩
      · rintro ⟨pre, k, post, hdec, hck, hpre⟩
        cases pre with
        | nil =>
          simp only [List.nil_append] at hdec
          have hb : m0 = m := congrArg Prod.snd (List.cons.inj hdec).1
          rw [hb]
        | cons q pre' =>
          simp only [List.cons_append] at hdec
          have h1 : (k0, m0) = q := (List.cons.inj hdec).1
          have hq := hpre q (List.mem_cons_self _ _)
          rw [← h1] at hq
          rw [hq] at hc
          exact Bool.noConfusion hc
    | false =>
      rw [show findRule low ((k0, m0) :: t) = findRule low t from by
        simp only [findRule]
        rw [if_neg (by rw [hc]; exact Bool.false_ne_true)]]
      rw [ih]
      constructor
      · rintro ⟨pre, k, post, hdec, hck, hpre⟩
        refine ⟨(k0, m0) :: pre, k, post, by rw [List.cons_append, hdec],
          hck, ?_⟩
        intro p hp
        rcases List.mem_cons.mp hp with h | h
        · rw [h]; exact hc
        · exact hpre p h
      · rintro ⟨pre, k, post, hdec, hck, hpre⟩
        cases pre with
        | nil =>
          simp only [List.nil_append] at hdec
          have ha : k0 = k := congrArg Prod.fst (List.cons.inj hdec).1
          rw [← ha] at hck
          rw [hck] at hc
          exact Bool.noConfusion hc
        | cons q pre' =>
          simp only [List.cons_append] at hdec
          exact ⟨pre', k, post, (List.cons.inj hdec).2, hck,
            fun p hp => hpre p (List.mem_cons_of_mem _ hp)⟩

theorem findRule_none_iff {low : List Char} :
    ∀ {rules : List (String × FastMeta)},
    findRule low rules = none ↔
      ∀ p ∈ rules, containsL p.1.toList low = false := by
  intro rules
  induction rules with
  | nil => simp [findRule]
  | cons r t ih =>
    obtain ⟨k0, m0⟩ := r
    cases hc : containsL k0.toList low with
    | true =>
      rw [show findRule low ((k0, m0) :: t) = some m0 from by
        simp only [findRule]; rw [if_pos hc]]
      constructor
      · intro h; exact Option.noConfusion h
      · intro h
        have := h (k0, m0) (List.mem_cons_self _ _)
        rw [this] at hc
        exact Bool.noConfusion hc
    | false =>
      rw [show findRule low ((k0, m0) :: t) = findRule low t from by
        simp only [findRule]
        rw [if_neg (by rw [hc]; exact Bool.false_ne_true)]]
      rw [ih]
      constructor
      · intro h p hp
        rcases List.mem_cons.mp hp with h1 | h1
        · rw [h1]; exact hc
        · exact h p h1
      · intro h p hp
        exact h p (List.mem_cons_of_mem _ hp)

/-! ## Claim C9: non-object extractions pass through and are cached -/

theorem enrichStep_non_obj {v : Json} (h : ∀ fields, v ≠ Json.obj fields) :
    enrichStep (some v) = .done (some v) false := by
  cases v with
  | obj fields => exact absurd rfl (h fields)
  | null => rfl
  | bool b => rfl
  | num n => rfl
  | str s => rfl
  | arr xs => rfl

theorem enrichStep_done_isSome {v : Json} {ext : Option Json} {fh : Bool}
    (he : enrichStep (some v) = .done ext fh) : ext.isSome = true := by
  cases v with
  | obj fields =>
    rw [enrichStep_obj] at he
    cases hemp : fields.isEmpty with
    | true =>
      rw [if_pos hemp] at he
      obtain ⟨h1, _⟩ := EnrichOut.done.inj he
      rw [← h1]
      rfl
    | false =>
      rw [if_neg (by rw [hemp]; exact Bool.false_ne_true)] at he
      cases hm : merchantText fields with
      | none =>
        rw [hm] at he
        exact EnrichOut.noConfusion he
      | some mstr =>
        rw [hm] at he
        have he2 : (match try_fast_path mstr with
          | none => EnrichOut.done (some (Json.obj fields)) false
          | some meta =>
            EnrichOut.done (some (Json.obj (enrichFields fields meta))) true) =
            EnrichOut.done ext fh := he
        cases hf : try_fast_path mstr with
        | none =>
          rw [hf] at he2
          obtain ⟨h1, _⟩ := EnrichOut.done.inj he2
          rw [← h1]
          rfl
        | some meta =>
          rw [hf] at he2
          obtain ⟨h1, _⟩ := EnrichOut.done.inj he2
          rw [← h1]
          rfl
  | null =>
    obtain ⟨h1, _⟩ := EnrichOut.done.inj
      (show EnrichOut.done (some Json.null) false = .done ext fh from he)
    rw [← h1]; rfl
  | bool b =>
    obtain ⟨h1, _⟩ := EnrichOut.done.inj
      (show EnrichOut.done (some (Json.bool b)) false = .done ext fh from he)
    rw [← h1]; rfl
  | num n =>
    obtain ⟨h1, _⟩ := EnrichOut.done.inj
      (show EnrichOut.done (some (Json.num n)) false = .done ext fh from he)
    rw [← h1]; rfl
  | str s =>
    obtain ⟨h1, _⟩ := EnrichOut.done.inj
      (show EnrichOut.done (some (Json.str s)) false = .done ext fh from he)
    rw [← h1]; rfl
  | arr xs =>
    obtain ⟨h1, _⟩ := EnrichOut.done.inj
      (show EnrichOut.done (some (Json.arr xs)) false = .done ext fh from he)
    rw [← h1]; rfl

theorem cache_put_fp (cap : Nat) (st : ServerState) (k : String)
    (v : Envelope) : (cache_put cap st k v).fast_path_hits = st.fast_path_hits :=
  rfl

/-- C9: when the model output decodes to a JSON value that is not an object,
the fast-path block leaves it untouched (no rule can fire), extract returns
it unchanged as the extraction, stores it in the cache under the content
hash, and the fast-path counter does not move; more generally any completed
request with a decoded (non-null) value caches the enriched envelope, and
enrichment can only fire on object values. -/
theorem c9_non_object_passthrough :
    (∀ (v : Json) (ext : Option Json),
      enrichStep (some v) = .done ext true → ∃ fields, v = Json.obj fields) ∧
    (∀ (v : Json), (∀ fields, v ≠ Json.obj fields) →
      enrichStep (some v) = .done (some v) false) ∧
    (∀ (oracle : Oracle) (cap : Nat) (st : ServerState) (req : ExtractRequest)
      (bs : List Nat) (raw : GenResult) (v : Json),
      1 ≤ cap →
      b64decode req.image = some bs →
      oracle bs (req.prompt.getD EXTRACT_SYSTEM_PROMPT) req.max_tokens = raw →
      List.lookup (sha256hex bs) st.content_cache = none →
      parseModelText raw.text.toList = some v →
      (∀ fields, v ≠ Json.obj fields) →
      extract oracle true cap st req =
        (.ok ⟨⟨"ok", some v, raw.text, raw.stats⟩, "miss",
          String.mk ((sha256hex bs).toList.take 16)⟩,
         cache_put cap { st with model_calls := st.model_calls + 1 }
           (sha256hex bs) ⟨"ok", some v, raw.text, raw.stats⟩) ∧
      List.lookup (sha256hex bs)
        (extract oracle true cap st req).2.content_cache =
        some ⟨"ok", some v, raw.text, raw.stats⟩ ∧
      (extract oracle true cap st req).2.fast_path_hits =
        st.fast_path_hits) ∧
    (∀ (oracle : Oracle) (cap : Nat) (st : ServerState) (req : ExtractRequest)
      (bs : List Nat) (raw : GenResult) (v : Json) (ext : Option Json)
      (fh : Bool),
      1 ≤ cap →
      b64decode req.image = some bs →
      oracle bs (req.prompt.getD EXTRACT_SYSTEM_PROMPT) req.max_tokens = raw →
      List.lookup (sha256hex bs) st.content_cache = none →
      parseModelText raw.text.toList = some v →
      enrichStep (some v) = .done ext fh →
      ∃ j, ext = some j ∧
        List.lookup (sha256hex bs)
          (extract oracle true cap st req).2.content_cache =
          some ⟨"ok", ext, raw.text, raw.stats⟩) := by
  refine ⟨?_, ?_, ?_, ?_⟩
  · intro v ext he
    cases hv : v with
    | obj fields => exact ⟨fields, rfl⟩
    | null =>
      rw [hv] at he
      rw [enrichStep_non_obj (fun f h => Json.noConfusion h)] at he
      exact absurd (EnrichOut.done.inj he).2 (by decide)
    | bool b =>
      rw [hv] at he
      rw [enrichStep_non_obj (fun f h => Json.noConfusion h)] at he
      exact absurd (EnrichOut.done.inj he).2 (by decide)
    | num n =>
      rw [hv] at he
      rw [enrichStep_non_obj (fun f h => Json.noConfusion h)] at he
      exact absurd (EnrichOut.done.inj he).2 (by decide)
    | str s =>
      rw [hv] at he
      rw [enrichStep_non_obj (fun f h => Json.noConfusion h)] at he
      exact absurd (EnrichOut.done.inj he).2 (by decide)
    | arr xs =>
      rw [hv] at he
      rw [enrichStep_non_obj (fun f h => Json.noConfusion h)] at he
      exact absurd (EnrichOut.done.inj he).2 (by decide)
  · intro v h
    exact enrichStep_non_obj h
  · intro oracle cap st req bs raw v hcap hb hr hc hp hobj
    have he : enrichStep (parseModelText raw.text.toList) =
        .done (some v) false := by
      rw [hp]
      exact enrichStep_non_obj hobj
    have heq2 : extract oracle true cap st req =
        (.ok ⟨⟨"ok", some v, raw.text, raw.stats⟩, "miss",
          String.mk ((sha256hex bs).toList.take 16)⟩,
         cache_put cap { st with model_calls := st.model_calls + 1 }
           (sha256hex bs) ⟨"ok", some v, raw.text, raw.stats⟩) :=
      extract_miss_done hb hr hc he
    refine ⟨heq2, ?_, ?_⟩
    · rw [heq2]
      exact lookup_cache_put_self hcap
    · rw [heq2]
      rw [cache_put_fp]
  · intro oracle cap st req bs raw v ext fh hcap hb hr hc hp he
    have hsome := enrichStep_done_isSome he
    have he2 : enrichStep (parseModelText raw.text.toList) = .done ext fh := by
      rw [hp]
      exact he
    have heq := @extract_miss_done oracle cap st req bs raw ext fh hb hr hc he2
    obtain ⟨j, hj⟩ := Option.isSome_iff_exists.mp hsome
    refine ⟨j, hj, ?_⟩
    rw [heq]
    show List.lookup (sha256hex bs)
      (if ext.isSome = true then _ else _ : ServerState).content_cache = _
    rw [if_pos hsome]
    exact lookup_cache_put_self hcap

/-- A model whose output parses to a JSON array (not an object). -/
def oracleArr : Oracle := fun _ _ _ => ⟨"[1, 2]", ⟨0, none, none⟩⟩

/-- Concrete instantiation of the four parts of the C9 theorem, with a model
output decoding to the array [1, 2]. -/
theorem c9_witness :
    (∃ fields, Json.obj [("merchant", Json.str "lidl")] = Json.obj fields) ∧
    enrichStep (some (Json.arr [Json.num 1, Json.num 2])) =
      .done (some (Json.arr [Json.num 1, Json.num 2])) false ∧
    (extract oracleArr true 256 initState reqA =
      (.ok ⟨⟨"ok", some (Json.arr [Json.num 1, Json.num 2]), "[1, 2]",
        ⟨0, none, none⟩⟩, "miss",
        String.mk ((sha256hex ("abc".toList.map Char.toNat)).toList.take 16)⟩,
       cache_put 256 { initState with model_calls := initState.model_calls + 1 }
         (sha256hex ("abc".toList.map Char.toNat))
         ⟨"ok", some (Json.arr [Json.num 1, Json.num 2]), "[1, 2]",
          ⟨0, none, none⟩⟩) ∧
      List.lookup (sha256hex ("abc".toList.map Char.toNat))
        (extract oracleArr true 256 initState reqA).2.content_cache =
        some ⟨"ok", some (Json.arr [Json.num 1, Json.num 2]), "[1, 2]",
          ⟨0, none, none⟩⟩ ∧
      (extract oracleArr true 256 initState reqA).2.fast_path_hits =
        initState.fast_path_hits) ∧
    (∃ j, (some (Json.arr [Json.num 1, Json.num 2]) : Option Json) = some j ∧
      List.lookup (sha256hex ("abc".toList.map Char.toNat))
        (extract oracleArr true 256 initState reqA).2.content_cache =
        some ⟨"ok", some (Json.arr [Json.num 1, Json.num 2]), "[1, 2]",
          ⟨0, none, none⟩⟩) :=
  ⟨c9_non_object_passthrough.1 (Json.obj [("merchant", Json.str "lidl")])
     (some (Json.obj [("merchant", Json.str "Lidl"),
       ("category", Json.str "Supermercado"), ("currency", Json.str "EUR")]))
     (by rfl),
   c9_non_object_passthrough.2.1 (Json.arr [Json.num 1, Json.num 2])
     (fun fields h => Json.noConfusion h),
   c9_non_object_passthrough.2.2.1 oracleArr 256 initState reqA
     ("abc".toList.map Char.toNat) ⟨"[1, 2]", ⟨0, none, none⟩⟩
     (Json.arr [Json.num 1, Json.num 2]) (by omega) rfl rfl rfl rfl
     (fun fields h => Json.noConfusion h),
   c9_non_object_passthrough.2.2.2 oracleArr 256 initState reqA
     ("abc".toList.map Char.toNat) ⟨"[1, 2]", ⟨0, none, none⟩⟩
     (Json.arr [Json.num 1, Json.num 2])
     (some (Json.arr [Json.num 1, Json.num 2])) false (by omega) rfl rfl rfl
     rfl (by rfl)⟩

/-! ## Lemmas about greedy splitting, toward the fence-stripping policy -/

/-- The backtick character, recovered from the fence marker itself. -/
def btk : Char := fenceMark.headD 'A'

theorem fenceMark_eq : fenceMark = btk :: btk :: btk :: [] := rfl

theorem fenceJson_eq :
    fenceJson = btk :: btk :: btk :: 'j' :: 's' :: 'o' :: 'n' :: [] := rfl

theorem isPrefixOf_cons_neq {s0 x : Char} (l xs : List Char) (h : x ≠ s0) :
    List.isPrefixOf (s0 :: l) (x :: xs) = false := by
  have hb : (s0 == x) = false := beq_eq_false_iff_ne.mpr (fun e => h e.symm)
  simp [List.isPrefixOf, hb]

theorem isPrefixOf_head_clean (s0 : Char) (l : List Char) {b : List Char}
    (h : ∀ c ∈ b, c ≠ s0) : List.isPrefixOf (s0 :: l) b = false := by
  cases b with
  | nil => rfl
  | cons p ps => exact isPrefixOf_cons_neq _ _ (h p (List.mem_cons_self _ _))

theorem splitGoF_clean_prepend (s0 : Char) (sp : List Char) :
    ∀ (a : List Char) (fuel : Nat) (acc b : List Char),
    (∀ c ∈ a, c ≠ s0) → a.length ≤ fuel →
    splitGoF fuel (s0 :: sp) acc (a ++ b) =
      splitGoF (fuel - a.length) (s0 :: sp) (acc ++ a) b := by
  intro a
  induction a with
  | nil => intro fuel acc b _ _; simp
  | cons x a' ih =>
    intro fuel acc b hcl hlen
    cases fuel with
    | zero =>
      simp only [List.length_cons] at hlen
      omega
    | succ f =>
      rw [List.cons_append]
      simp only [splitGoF]
      rw [isPrefixOf_cons_neq _ _ (hcl x (List.mem_cons_self _ _))]
      rw [if_neg Bool.false_ne_true]
      rw [ih f (acc ++ [x]) b (fun c hc => hcl c (List.mem_cons_of_mem _ hc))
        (by simp only [List.length_cons] at hlen; omega)]
      simp only [List.length_cons]
      have h1 : f - a'.length = f + 1 - (a'.length + 1) := by omega
      rw [← h1]
      congr 1
      simp

theorem splitGoF_match (s0 : Char) (sp : List Char) (fuel : Nat)
    (acc b : List Char) :
    splitGoF (fuel + 1) (s0 :: sp) acc ((s0 :: sp) ++ b) =
      acc :: splitGoF fuel (s0 :: sp) [] b := by
  rw [List.cons_append]
  simp only [splitGoF]
  rw [if_pos (by
    rw [← List.cons_append]
    exact prefixOf_true_iff.mpr (List.prefix_append _ _))]
  congr 1
  rw [← List.cons_append, List.drop_left]

theorem splitGoF_no_match (s0 : Char) (sp : List Char) :
    ∀ (b : List Char) (fuel : Nat) (acc : List Char),
    (∀ c ∈ b, c ≠ s0) →
    splitGoF fuel (s0 :: sp) acc b = [acc ++ b] := by
  intro b
  induction b with
  | nil => intro fuel acc _; cases fuel <;> simp [splitGoF]
  | cons x b' ih =>
    intro fuel acc hcl
    cases fuel with
    | zero => simp [splitGoF]
    | succ f =>
      simp only [splitGoF]
      rw [isPrefixOf_cons_neq _ _ (hcl x (List.mem_cons_self _ _))]
      rw [if_neg Bool.false_ne_true]
      rw [ih f (acc ++ [x]) (fun c hc => hcl c (List.mem_cons_of_mem _ hc))]
      simp

theorem isPrefixOf_fenceJson_fence {post : List Char}
    (hpj : ¬ ("json".toList <+: post)) :
    List.isPrefixOf fenceJson (btk :: btk :: btk :: post) = false := by
  have hjs : List.isPrefixOf ('j' :: 's' :: 'o' :: 'n' :: []) post = false := by
    cases h2 : List.isPrefixOf ('j' :: 's' :: 'o' :: 'n' :: []) post
    · rfl
    · exact absurd (prefixOf_true_iff.mp h2) hpj
  rw [fenceJson_eq]
  simp [List.isPrefixOf, hjs]

theorem splitGoF_fenceJson_stop :
    ∀ (fuel : Nat) (acc post : List Char),
    (∀ c ∈ post, c ≠ btk) → ¬ ("json".toList <+: post) →
    splitGoF fuel fenceJson acc (fenceMark ++ post) =
      [acc ++ (fenceMark ++ post)] := by
  intro fuel acc post hcl hpj
  rw [show fenceMark ++ post = btk :: btk :: btk :: post from rfl]
  have hp1 : fenceJson.isPrefixOf (btk :: btk :: btk :: post) = false :=
    isPrefixOf_fenceJson_fence hpj
  have hp2 : fenceJson.isPrefixOf (btk :: btk :: post) = false := by
    rw [fenceJson_eq]
    simp [List.isPrefixOf,
      isPrefixOf_head_clean btk ('j' :: 's' :: 'o' :: 'n' :: [])
        hcl]
  have hp3 : fenceJson.isPrefixOf (btk :: post) = false := by
    rw [fenceJson_eq]
    simp [List.isPrefixOf,
      isPrefixOf_head_clean btk (btk :: 'j' :: 's' :: 'o' :: 'n' :: []) hcl]
  have hnm := splitGoF_no_match
    btk (btk :: btk :: 'j' :: 's' :: 'o' :: 'n' :: []) post
  rw [show btk :: (btk :: btk :: 'j' :: 's' :: 'o' :: 'n' :: []) = fenceJson
    from rfl] at hnm
  cases fuel with
  | zero => simp [splitGoF]
  | succ f =>
    simp only [splitGoF]
    rw [hp1, if_neg Bool.false_ne_true]
    cases f with
    | zero => simp [splitGoF]
    | succ f2 =>
      simp only [splitGoF]
      rw [hp2, if_neg Bool.false_ne_true]
      cases f2 with
      | zero => simp [splitGoF]
      | succ f3 =>
        simp only [splitGoF]
        rw [hp3, if_neg Bool.false_ne_true]
        rw [hnm f3 _ hcl]
        simp

theorem containsL_clean_prepend (s0 : Char) (sp : List Char) :
    ∀ (a b : List Char), (∀ c ∈ a, c ≠ s0) →
    containsL (s0 :: sp) (a ++ b) = containsL (s0 :: sp) b := by
  intro a
  induction a with
  | nil => intro b _; rfl
  | cons x a' ih =>
    intro b hcl
    rw [List.cons_append]
    show (List.isPrefixOf _ _ || _) = _
    rw [isPrefixOf_cons_neq _ _ (hcl x (List.mem_cons_self _ _))]
    rw [Bool.false_or]
    exact ih b (fun c hc => hcl c (List.mem_cons_of_mem _ hc))

theorem containsL_self_append {sep b : List Char} (h : sep ≠ []) :
    containsL sep (sep ++ b) = true := by
  cases sep with
  | nil => exact absurd rfl h
  | cons s0 sp =>
    rw [List.cons_append]
    show (List.isPrefixOf _ _ || _) = _
    rw [show List.isPrefixOf (s0 :: sp) (s0 :: (sp ++ b)) = true from by
      rw [← List.cons_append]
      exact prefixOf_true_iff.mpr (List.prefix_append _ _)]
    rfl

theorem containsL_clean_none (s0 : Char) (sp : List Char) :
    ∀ (b : List Char), (∀ c ∈ b, c ≠ s0) →
    containsL (s0 :: sp) b = false := by
  intro b
  induction b with
  | nil => intro _; rfl
  | cons x b' ih =>
    intro hcl
    show (List.isPrefixOf _ _ || _) = _
    rw [isPrefixOf_cons_neq _ _ (hcl x (List.mem_cons_self _ _))]
    rw [Bool.false_or]
    exact ih (fun c hc => hcl c (List.mem_cons_of_mem _ hc))

theorem containsL_fenceJson_fence {post : List Char}
    (hcl : ∀ c ∈ post, c ≠ btk) (hpj : ¬ ("json".toList <+: post)) :
    containsL fenceJson (fenceMark ++ post) = false := by
  rw [show fenceMark ++ post = btk :: btk :: btk :: post from rfl]
  show (fenceJson.isPrefixOf (btk :: btk :: btk :: post) ||
    containsL fenceJson (btk :: btk :: post)) = false
  rw [isPrefixOf_fenceJson_fence hpj, Bool.false_or]
  show (fenceJson.isPrefixOf (btk :: btk :: post) ||
    containsL fenceJson (btk :: post)) = false
  rw [show fenceJson.isPrefixOf (btk :: btk :: post) = false from by
    rw [fenceJson_eq]
    simp [List.isPrefixOf,
      isPrefixOf_head_clean btk ('j' :: 's' :: 'o' :: 'n' :: [])
        hcl]]
  rw [Bool.false_or]
  show (fenceJson.isPrefixOf (btk :: post) ||
    containsL fenceJson post) = false
  rw [show fenceJson.isPrefixOf (btk :: post) = false from by
    rw [fenceJson_eq]
    simp [List.isPrefixOf,
      isPrefixOf_head_clean btk (btk :: 'j' :: 's' :: 'o' :: 'n' :: []) hcl]]
  rw [Bool.false_or]
  rw [show fenceJson = btk :: (btk :: btk :: 'j' :: 's' :: 'o' :: 'n' :: [])
    from rfl]
  exact containsL_clean_none btk (btk :: btk :: 'j' :: 's' :: 'o' :: 'n' :: [])
    post hcl

theorem not_prefix_append (s0 : Char) (b' : List Char) :
    ∀ (a pat : List Char), (∀ c ∈ pat, c ≠ s0) → ¬ (pat <+: a) →
    ¬ (pat <+: a ++ s0 :: b') := by
  intro a
  induction a with
  | nil =>
    intro pat hclean hna hp
    cases pat with
    | nil => exact hna ⟨_, rfl⟩
    | cons p pr =>
      rw [List.nil_append] at hp
      exact hclean p (List.mem_cons_self _ _) (List.cons_prefix_cons.mp hp).1
  | cons x a' ih =>
    intro pat hclean hna hp
    cases pat with
    | nil => exact hna ⟨_, rfl⟩
    | cons p pr =>
      rw [List.cons_append] at hp
      obtain ⟨hpx, hpr⟩ := List.cons_prefix_cons.mp hp
      have hna' : ¬ (pr <+: a') := fun hh =>
        hna (List.cons_prefix_cons.mpr ⟨hpx, hh⟩)
      exact ih pr (fun c hc => hclean c (List.mem_cons_of_mem _ hc)) hna' hpr

/-- The fenced-JSON branch of the candidate selection: with a single
JSON-tagged block and no stray backticks, the candidate is the stripped
content between the JSON-tagged marker and the next fence. -/
theorem selectCandidate_json_block (pre mid post : List Char)
    (hpre : ∀ c ∈ pre, c ≠ btk) (hmid : ∀ c ∈ mid, c ≠ btk)
    (hpost : ∀ c ∈ post, c ≠ btk) (hpj : ¬ ("json".toList <+: post)) :
    selectCandidate (pre ++ fenceJson ++ mid ++ fenceMark ++ post) =
      trimL mid := by
  have hassoc : pre ++ fenceJson ++ mid ++ fenceMark ++ post =
      pre ++ (fenceJson ++ (mid ++ (fenceMark ++ post))) := by
    simp [List.append_assoc]
  rw [hassoc]
  have hcj : containsL fenceJson
      (pre ++ (fenceJson ++ (mid ++ (fenceMark ++ post)))) = true := by
    have h1 := containsL_clean_prepend
      btk (btk :: btk :: 'j' :: 's' :: 'o' :: 'n' :: [])
      pre (fenceJson ++ (mid ++ (fenceMark ++ post))) hpre
    rw [show btk :: (btk :: btk :: 'j' :: 's' :: 'o' :: 'n' :: []) =
      fenceJson from rfl] at h1
    rw [h1]
    exact containsL_self_append (by decide)
  unfold selectCandidate
  rw [if_pos hcj]
  have hsplit1 : splitOnL fenceJson
      (pre ++ (fenceJson ++ (mid ++ (fenceMark ++ post)))) =
      [pre, mid ++ (fenceMark ++ post)] := by
    unfold splitOnL
    have h1 := splitGoF_clean_prepend
      btk (btk :: btk :: 'j' :: 's' :: 'o' :: 'n' :: [])
      pre (pre ++ (fenceJson ++ (mid ++ (fenceMark ++ post)))).length
      [] (fenceJson ++ (mid ++ (fenceMark ++ post))) hpre
      (by simp [List.length_append])
    rw [show btk :: (btk :: btk :: 'j' :: 's' :: 'o' :: 'n' :: []) =
      fenceJson from rfl] at h1
    rw [h1, List.nil_append]
    have hlen : (pre ++ (fenceJson ++ (mid ++ (fenceMark ++ post)))).length -
        pre.length = (mid.length + post.length + 9) + 1 := by
      simp [List.length_append, fenceJson_eq, fenceMark_eq]
      omega
    rw [hlen]
    have h2 := splitGoF_match
      btk (btk :: btk :: 'j' :: 's' :: 'o' :: 'n' :: [])
      (mid.length + post.length + 9) pre (mid ++ (fenceMark ++ post))
    rw [show btk :: (btk :: btk :: 'j' :: 's' :: 'o' :: 'n' :: []) =
      fenceJson from rfl] at h2
    rw [h2]
    have h3 := splitGoF_clean_prepend
      btk (btk :: btk :: 'j' :: 's' :: 'o' :: 'n' :: [])
      mid (mid.length + post.length + 9) [] (fenceMark ++ post) hmid
      (by omega)
    rw [show btk :: (btk :: btk :: 'j' :: 's' :: 'o' :: 'n' :: []) =
      fenceJson from rfl] at h3
    rw [h3, List.nil_append]
    rw [splitGoF_fenceJson_stop _ _ _ hpost hpj]
  rw [hsplit1]
  have hlast : ([pre, mid ++ (fenceMark ++ post)]).getLastD ([] : List Char) =
      mid ++ (fenceMark ++ post) := rfl
  rw [hlast]
  have hsplit2 : splitOnL fenceMark (mid ++ (fenceMark ++ post)) =
      [mid, post] := by
    unfold splitOnL
    have h1 := splitGoF_clean_prepend
      btk (btk :: btk :: [])
      mid (mid ++ (fenceMark ++ post)).length [] (fenceMark ++ post) hmid
      (by simp [List.length_append])
    rw [show btk :: (btk :: btk :: []) = fenceMark from rfl] at h1
    rw [h1, List.nil_append]
    have hlen : (mid ++ (fenceMark ++ post)).length - mid.length =
        (post.length + 2) + 1 := by
      simp [List.length_append, fenceMark_eq]
    rw [hlen]
    have h2 := splitGoF_match btk (btk :: btk :: [])
      (post.length + 2) mid post
    rw [show btk :: (btk :: btk :: []) = fenceMark from rfl] at h2
    rw [h2]
    have h3 := splitGoF_no_match btk (btk :: btk :: [])
      post (post.length + 2) [] hpost
    rw [show btk :: (btk :: btk :: []) = fenceMark from rfl] at h3
    rw [h3, List.nil_append]
  rw [hsplit2]
  rfl

/-- Absence of the JSON-tagged marker in a plain-fenced text whose inner
content starts with a non-backtick character. -/
theorem containsL_fenceJson_fence_mid {m0 : Char} {mid' post : List Char}
    (hm0 : m0 ≠ btk) (hmid : ∀ c ∈ mid', c ≠ btk)
    (hpost : ∀ c ∈ post, c ≠ btk)
    (hjX : ¬ ("json".toList <+: (m0 :: mid') ++ (fenceMark ++ post)))
    (hpj : ¬ ("json".toList <+: post)) :
    containsL fenceJson
      (fenceMark ++ ((m0 :: mid') ++ (fenceMark ++ post))) = false := by
  have hbm : (btk == m0) = false := beq_eq_false_iff_ne.mpr
    (fun e => hm0 e.symm)
  rw [show fenceMark ++ ((m0 :: mid') ++ (fenceMark ++ post)) =
    btk :: btk :: btk :: ((m0 :: mid') ++ (fenceMark ++ post)) from rfl]
  show (fenceJson.isPrefixOf
      (btk :: btk :: btk :: ((m0 :: mid') ++ (fenceMark ++ post))) ||
    containsL fenceJson (btk :: btk :: ((m0 :: mid') ++ (fenceMark ++ post))))
      = false
  rw [isPrefixOf_fenceJson_fence hjX, Bool.false_or]
  show (fenceJson.isPrefixOf
      (btk :: btk :: ((m0 :: mid') ++ (fenceMark ++ post))) ||
    containsL fenceJson (btk :: ((m0 :: mid') ++ (fenceMark ++ post)))) = false
  rw [show fenceJson.isPrefixOf
      (btk :: btk :: ((m0 :: mid') ++ (fenceMark ++ post))) = false from by
    rw [fenceJson_eq,
      show (m0 :: mid') ++ (fenceMark ++ post) =
        m0 :: (mid' ++ (fenceMark ++ post)) from rfl]
    simp [List.isPrefixOf, hbm]]
  rw [Bool.false_or]
  show (fenceJson.isPrefixOf
      (btk :: ((m0 :: mid') ++ (fenceMark ++ post))) ||
    containsL fenceJson ((m0 :: mid') ++ (fenceMark ++ post))) = false
  rw [show fenceJson.isPrefixOf
      (btk :: ((m0 :: mid') ++ (fenceMark ++ post))) = false from by
    rw [fenceJson_eq,
      show (m0 :: mid') ++ (fenceMark ++ post) =
        m0 :: (mid' ++ (fenceMark ++ post)) from rfl]
    simp [List.isPrefixOf, hbm]]
  rw [Bool.false_or]
  have h1 := containsL_clean_prepend
    btk (btk :: btk :: 'j' :: 's' :: 'o' :: 'n' :: [])
    (m0 :: mid') (fenceMark ++ post)
    (by
      intro c hc
      rcases List.mem_cons.mp hc with h | h
      · rw [h]; exact hm0
      · exact hmid c h)
  rw [show btk :: (btk :: btk :: 'j' :: 's' :: 'o' :: 'n' :: []) =
    fenceJson from rfl] at h1
  rw [h1]
  exact containsL_fenceJson_fence hpost hpj

/-- The plain-fence branch of the candidate selection: with exactly one pair
of untagged fences (the inner content nonempty and not starting the tag
"json"), the candidate is the stripped content between the first fence
pair. -/
theorem selectCandidate_plain_block (pre post mid' : List Char) (m0 : Char)
    (hpre : ∀ c ∈ pre, c ≠ btk) (hmid : ∀ c ∈ m0 :: mid', c ≠ btk)
    (hpost : ∀ c ∈ post, c ≠ btk)
    (hjm : ¬ ("json".toList <+: m0 :: mid'))
    (hpj : ¬ ("json".toList <+: post)) :
    selectCandidate (pre ++ fenceMark ++ (m0 :: mid') ++ fenceMark ++ post) =
      trimL (m0 :: mid') := by
  have hm0 : m0 ≠ btk := hmid m0 (List.mem_cons_self _ _)
  have hmid' : ∀ c ∈ mid', c ≠ btk :=
    fun c hc => hmid c (List.mem_cons_of_mem _ hc)
  have hassoc : pre ++ fenceMark ++ (m0 :: mid') ++ fenceMark ++ post =
      pre ++ (fenceMark ++ ((m0 :: mid') ++ (fenceMark ++ post))) := by
    simp [List.append_assoc]
  rw [hassoc]
  have hjX : ¬ ("json".toList <+: (m0 :: mid') ++ (fenceMark ++ post)) := by
    have h1 := not_prefix_append btk (btk :: btk :: post)
      (m0 :: mid') "json".toList
      (by decide) hjm
    rw [show btk :: btk :: btk :: post = fenceMark ++ post from rfl] at h1
    exact h1
  have hcj : containsL fenceJson
      (pre ++ (fenceMark ++ ((m0 :: mid') ++ (fenceMark ++ post)))) =
      false := by
    have h1 := containsL_clean_prepend
      btk (btk :: btk :: 'j' :: 's' :: 'o' :: 'n' :: [])
      pre (fenceMark ++ ((m0 :: mid') ++ (fenceMark ++ post))) hpre
    rw [show btk :: (btk :: btk :: 'j' :: 's' :: 'o' :: 'n' :: []) =
      fenceJson from rfl] at h1
    rw [h1]
    exact containsL_fenceJson_fence_mid hm0 hmid' hpost hjX hpj
  have hcm : containsL fenceMark
      (pre ++ (fenceMark ++ ((m0 :: mid') ++ (fenceMark ++ post)))) =
      true := by
    have h1 := containsL_clean_prepend
      btk (btk :: btk :: [])
      pre (fenceMark ++ ((m0 :: mid') ++ (fenceMark ++ post))) hpre
    rw [show btk :: (btk :: btk :: []) = fenceMark from rfl] at h1
    rw [h1]
    exact containsL_self_append (by decide)
  unfold selectCandidate
  rw [if_neg (by rw [hcj]; exact Bool.false_ne_true)]
  rw [if_pos hcm]
  have hmidclean : ∀ c ∈ m0 :: mid', c ≠ btk := hmid
  have hsplit1 : splitOnL fenceMark
      (pre ++ (fenceMark ++ ((m0 :: mid') ++ (fenceMark ++ post)))) =
      [pre, m0 :: mid', post] := by
    unfold splitOnL
    have h1 := splitGoF_clean_prepend
      btk (btk :: btk :: [])
      pre (pre ++ (fenceMark ++ ((m0 :: mid') ++ (fenceMark ++ post)))).length
      [] (fenceMark ++ ((m0 :: mid') ++ (fenceMark ++ post))) hpre
      (by simp [List.length_append])
    rw [show btk :: (btk :: btk :: []) = fenceMark from rfl] at h1
    rw [h1, List.nil_append]
    have hlen :
        (pre ++ (fenceMark ++ ((m0 :: mid') ++ (fenceMark ++ post)))).length -
        pre.length = (mid'.length + post.length + 6) + 1 := by
      simp [List.length_append, List.length_cons, fenceMark_eq]
      omega
    rw [hlen]
    have h2 := splitGoF_match btk (btk :: btk :: [])
      (mid'.length + post.length + 6) pre
      ((m0 :: mid') ++ (fenceMark ++ post))
    rw [show btk :: (btk :: btk :: []) = fenceMark from rfl] at h2
    rw [h2]
    have h3 := splitGoF_clean_prepend
      btk (btk :: btk :: [])
      (m0 :: mid') (mid'.length + post.length + 6) [] (fenceMark ++ post)
      hmidclean (by simp only [List.length_cons]; omega)
    rw [show btk :: (btk :: btk :: []) = fenceMark from rfl] at h3
    rw [h3, List.nil_append]
    have hlen2 : mid'.length + post.length + 6 - (m0 :: mid').length =
        (post.length + 4) + 1 := by
      simp only [List.length_cons]
      omega
    rw [hlen2]
    have h4 := splitGoF_match btk (btk :: btk :: [])
      (post.length + 4) (m0 :: mid') post
    rw [show btk :: (btk :: btk :: []) = fenceMark from rfl] at h4
    rw [h4]
    have h5 := splitGoF_no_match btk (btk :: btk :: [])
      post (post.length + 4) [] hpost
    rw [show btk :: (btk :: btk :: []) = fenceMark from rfl] at h5
    rw [h5, List.nil_append]
  rw [hsplit1]
  have hget : ([pre, m0 :: mid', post]).getD 1 ([] : List Char) =
      m0 :: mid' := rfl
  rw [hget]
  have hsplit3 : splitOnL fenceMark (m0 :: mid') = [m0 :: mid'] := by
    unfold splitOnL
    have h5 := splitGoF_no_match btk (btk :: btk :: [])
      (m0 :: mid') (m0 :: mid').length [] hmidclean
    rw [show btk :: (btk :: btk :: []) = fenceMark from rfl] at h5
    rw [h5, List.nil_append]
  rw [hsplit3]
  rfl

/-- The verbatim branch: a text with no fence marker is used unchanged. -/
theorem selectCandidate_no_fence {t : List Char}
    (h : ¬ (fenceMark <:+: t)) : selectCandidate t = t := by
  have hcm : containsL fenceMark t = false := by
    cases hc : containsL fenceMark t
    · rfl
    · exact absurd (containsL_eq_true_iff.mp hc) h
  have hcj : containsL fenceJson t = false := by
    cases hc : containsL fenceJson t
    · rfl
    · exfalso
      obtain ⟨u, v, huv⟩ := containsL_eq_true_iff.mp hc
      refine h ⟨u, "json".toList ++ v, ?_⟩
      rw [← huv, show fenceJson = fenceMark ++ "json".toList from rfl]
      simp [List.append_assoc]
  unfold selectCandidate
  rw [if_neg (by rw [hcj]; exact Bool.false_ne_true)]
  rw [if_neg (by rw [hcm]; exact Bool.false_ne_true)]

/-! ## Claim C5: the fence-stripping parse policy -/

/-- C5: the candidate JSON string handed to the decoder is selected per the
spec's policy — with a JSON-tagged fenced block (and no stray backticks) it
is the stripped content between the JSON-tagged marker and the next fence;
with only plain fences it is the stripped content between the first pair;
with no fences it is the full text verbatim, and then an undecodable text
yields a null extraction without any error; in particular the given tagged
example parses to the object with merchant "X". -/
theorem c5_parse_policy :
    (∀ t : List Char, ¬ (fenceMark <:+: t) →
      selectCandidate t = t ∧
      (jsonLoads t = none → parseModelText t = none)) ∧
    (∀ pre mid post : List Char,
      (∀ c ∈ pre, c ≠ btk) → (∀ c ∈ mid, c ≠ btk) →
      (∀ c ∈ post, c ≠ btk) → ¬ ("json".toList <+: post) →
      selectCandidate (pre ++ fenceJson ++ mid ++ fenceMark ++ post) =
        trimL mid) ∧
    (∀ (pre post mid' : List Char) (m0 : Char),
      (∀ c ∈ pre, c ≠ btk) → (∀ c ∈ m0 :: mid', c ≠ btk) →
      (∀ c ∈ post, c ≠ btk) →
      ¬ ("json".toList <+: m0 :: mid') → ¬ ("json".toList <+: post) →
      selectCandidate (pre ++ fenceMark ++ (m0 :: mid') ++ fenceMark ++ post) =
        trimL (m0 :: mid')) ∧
    parseModelText
      "prefix ```json \x7b\"merchant\":\"X\"\x7d ``` suffix".toList =
      some (Json.obj [("merchant", Json.str "X")]) := by
  refine ⟨?_, ?_, ?_, ?_⟩
  · intro t ht
    have hsel := selectCandidate_no_fence ht
    refine ⟨hsel, ?_⟩
    intro hj
    unfold parseModelText
    rw [hsel]
    exact hj
  · exact selectCandidate_json_block
  · exact selectCandidate_plain_block
  · rfl

/-- Concrete instantiation of the parts of the C5 theorem with hypotheses:
a fence-free text is used verbatim and, being invalid JSON, yields a null
extraction; a tagged block and a plain block are cut at their fences. -/
theorem c5_witness :
    (selectCandidate "just a receipt".toList = "just a receipt".toList ∧
      (jsonLoads "just a receipt".toList = none →
        parseModelText "just a receipt".toList = none)) ∧
    selectCandidate ("pre ".toList ++ fenceJson ++ " [1] ".toList ++
      fenceMark ++ " tail".toList) = trimL " [1] ".toList ∧
    selectCandidate ("intro ".toList ++ fenceMark ++ ('x' :: " [2] ".toList) ++
      fenceMark ++ " outro".toList) = trimL ('x' :: " [2] ".toList) ∧
    parseModelText
      "prefix ```json \x7b\"merchant\":\"X\"\x7d ``` suffix".toList =
      some (Json.obj [("merchant", Json.str "X")]) :=
  ⟨c5_parse_policy.1 "just a receipt".toList (by decide),
   c5_parse_policy.2.1 "pre ".toList " [1] ".toList " tail".toList
     (by decide) (by decide) (by decide) (by decide),
   c5_parse_policy.2.2.1 "intro ".toList " outro".toList " [2] ".toList 'x'
     (by decide) (by decide) (by decide) (by decide) (by decide),
   c5_parse_policy.2.2.2⟩

/-! ## Claim C6: fast-path first-match semantics -/

/-- A model whose output mentions the merchant keyword "lidl" inside a fenced
JSON block, with no category or currency. -/
def lidlOracle : Oracle := fun _ _ _ =>
  ⟨"```json\n\x7b\"merchant\": \"LIDL & Cia\", \"total\": 23\x7d\n```",
   ⟨0, none, none⟩⟩

/-- C6: the fast-path matcher returns the metadata of a rule exactly when the
rule table splits as earlier-rules / that rule / later-rules with the rule's
keyword contained in the lowercased text and no earlier rule's keyword
contained (first match in definition order), and returns nothing exactly when
no keyword is contained; on a merchant text containing "lidl" the pipeline
enriches to merchant "Lidl", category "Supermercado", currency "EUR"; and
when no keyword matches, the enrichment block returns the parsed fields
unmodified. -/
theorem c6_fast_path_first_match :
    (∀ (t : String) (m : FastMeta),
      try_fast_path t = some m ↔
      ∃ pre k post, FAST_PATH_MERCHANTS = pre ++ (k, m) :: post ∧
        (k.toList <:+: lowerL t.toList) ∧
        ∀ p ∈ pre, ¬ (p.1.toList <:+: lowerL t.toList)) ∧
    (∀ (t : String),
      try_fast_path t = none ↔
      ∀ p ∈ FAST_PATH_MERCHANTS, ¬ (p.1.toList <:+: lowerL t.toList)) ∧
    extract lidlOracle true 256 initState reqA =
      (.ok ⟨⟨"ok",
        some (Json.obj [("merchant", Json.str "Lidl"), ("total", Json.num 23),
          ("category", Json.str "Supermercado"),
          ("currency", Json.str "EUR")]),
        "```json\n\x7b\"merchant\": \"LIDL & Cia\", \"total\": 23\x7d\n```",
        ⟨0, none, none⟩⟩, "miss",
        String.mk ((sha256hex ("abc".toList.map Char.toNat)).toList.take 16)⟩,
       ⟨[(sha256hex ("abc".toList.map Char.toNat),
          ⟨"ok",
           some (Json.obj [("merchant", Json.str "Lidl"),
             ("total", Json.num 23), ("category", Json.str "Supermercado"),
             ("currency", Json.str "EUR")]),
           "```json\n\x7b\"merchant\": \"LIDL & Cia\", \"total\": 23\x7d\n```",
           ⟨0, none, none⟩⟩)], 0, 1, 1, 1⟩) ∧
    (∀ (fields : List (String × Json)) (mstr : String),
      merchantText fields = some mstr →
      try_fast_path mstr = none →
      enrichStep (some (Json.obj fields)) =
        .done (some (Json.obj fields)) false) := by
  refine ⟨?_, ?_, ?_, ?_⟩
  · intro t m
    unfold try_fast_path
    rw [findRule_some_iff]
    constructor
    · rintro ⟨pre, k, post, hdec, hck, hpre⟩
      exact ⟨pre, k, post, hdec, containsL_eq_true_iff.mp hck,
        fun p hp hi => Bool.noConfusion
          ((hpre p hp).symm.trans (containsL_eq_true_iff.mpr hi))⟩
    · rintro ⟨pre, k, post, hdec, hck, hpre⟩
      refine ⟨pre, k, post, hdec, containsL_eq_true_iff.mpr hck, ?_⟩
      intro p hp
      cases hcl : containsL p.1.toList (lowerL t.toList) with
      | false => rfl
      | true => exact absurd (containsL_eq_true_iff.mp hcl) (hpre p hp)
  · intro t
    unfold try_fast_path
    rw [findRule_none_iff]
    constructor
    · intro h p hp hi
      exact Bool.noConfusion ((h p hp).symm.trans (containsL_eq_true_iff.mpr hi))
    · intro h p hp
      cases hcl : containsL p.1.toList (lowerL t.toList) with
      | false => rfl
      | true => exact absurd (containsL_eq_true_iff.mp hcl) (h p hp)
  · rfl
  · intro fields mstr hm hf
    rw [enrichStep_obj]
    cases hemp : fields.isEmpty with
    | true => rw [if_pos rfl]
    | false =>
      rw [if_neg Bool.false_ne_true]
      rw [hm]
      show (match try_fast_path mstr with
        | none => EnrichOut.done (some (Json.obj fields)) false
        | some meta =>
          EnrichOut.done (some (Json.obj (enrichFields fields meta))) true) =
        EnrichOut.done (some (Json.obj fields)) false
      rw [hf]

/-- Concrete instantiation of the parts of the C6 theorem with hypotheses:
the first-match decomposition for text containing "uber", the no-match
characterization for an unrelated text, and the unmodified-fields property
for a merchant with no known keyword. -/
theorem c6_witness :
    (∃ pre k post,
      FAST_PATH_MERCHANTS = pre ++ (k, ⟨"Uber", "Transportes", "EUR"⟩) :: post ∧
      (k.toList <:+: lowerL "Uber Eats Lisboa".toList) ∧
      ∀ p ∈ pre, ¬ (p.1.toList <:+: lowerL "Uber Eats Lisboa".toList)) ∧
    (∀ p ∈ FAST_PATH_MERCHANTS,
      ¬ (p.1.toList <:+: lowerL "Padaria do Bairro".toList)) ∧
    enrichStep (some (Json.obj [("merchant", Json.str "zz")])) =
      .done (some (Json.obj [("merchant", Json.str "zz")])) false :=
  ⟨(c6_fast_path_first_match.1 "Uber Eats Lisboa"
      ⟨"Uber", "Transportes", "EUR"⟩).mp rfl,
   (c6_fast_path_first_match.2.1 "Padaria do Bairro").mp rfl,
   c6_fast_path_first_match.2.2.2 [("merchant", Json.str "zz")] "zz" rfl rfl⟩

/-! ## Claim C7: non-destructive enrichment frame -/

theorem lookup_objSet (f : List (String × Json)) (k : String) (v : Json)
    (k' : String) :
    List.lookup k' (objSet f k v) =
      if k' = k then some v else List.lookup k' f := by
  induction f with
  | nil =>
    by_cases h : k' = k <;>
      simp [objSet, List.lookup_cons, h]
    rw [beq_eq_false_iff_ne.mpr h]
  | cons p t ih =>
    obtain ⟨k0, v0⟩ := p
    by_cases h0 : k0 = k <;> by_cases h1 : k' = k0 <;>
      simp_all [objSet, List.lookup_cons, ih]
    · rw [beq_eq_false_iff_ne.mpr h1]
    · rw [beq_eq_false_iff_ne.mpr h1]

/-- C7 counterexample: the model populated category with the empty string,
which is falsy, so the code overwrites it with the rule's category — the
claim that a populated category is never overwritten fails at this input. -/
theorem c7_counterexample :
    objGet [("merchant", Json.str "lidl"), ("category", Json.str "")]
      "category" = some (Json.str "") ∧
    enrichStep (some (Json.obj
      [("merchant", Json.str "lidl"), ("category", Json.str "")])) =
      .done (some (Json.obj [("merchant", Json.str "Lidl"),
        ("category", Json.str "Supermercado"),
        ("currency", Json.str "EUR")])) true ∧
    Json.str "Supermercado" ≠ Json.str "" := by
  refine ⟨rfl, rfl, ?_⟩
  intro h
  injection h with h2
  exact absurd h2 (by decide)

/-- C7 (amended): when a fast-path rule matches, the enrichment block always
rewrites the merchant field to the rule's canonical display name, never
replaces a truthy category or currency value (it assigns them only when the
current value is absent or falsy — null, empty string, zero or false — the
empty string being the case the original claim missed), and changes no field
other than merchant, category and currency. -/
theorem c7_enrichment_frame :
    ∀ (fields : List (String × Json)) (mstr : String) (meta : FastMeta),
    merchantText fields = some mstr →
    try_fast_path mstr = some meta →
    fields.isEmpty = false →
    enrichStep (some (Json.obj fields)) =
      .done (some (Json.obj (enrichFields fields meta))) true ∧
    objGet (enrichFields fields meta) "merchant" =
      some (Json.str meta.merchant) ∧
    (∀ v, objGet fields "category" = some v → jsonTruthy v = true →
      objGet (enrichFields fields meta) "category" = some v) ∧
    (∀ v, objGet fields "currency" = some v → jsonTruthy v = true →
      objGet (enrichFields fields meta) "currency" = some v) ∧
    (∀ key, key ≠ "merchant" → key ≠ "category" → key ≠ "currency" →
      objGet (enrichFields fields meta) key = objGet fields key) := by
  intro fields mstr meta hm hf hne
  refine ⟨?_, ?_, ?_, ?_, ?_⟩
  · rw [enrichStep_obj]
    rw [if_neg (by rw [hne]; exact Bool.false_ne_true)]
    rw [hm]
    show (match try_fast_path mstr with
      | none => EnrichOut.done (some (Json.obj fields)) false
      | some meta =>
        EnrichOut.done (some (Json.obj (enrichFields fields meta))) true) = _
    rw [hf]
  · simp only [enrichFields, objGet, lookup_objSet]
    split_ifs <;> simp [lookup_objSet]
  · intro v hv htr
    have hv2 : List.lookup "category" fields = some v := hv
    simp only [enrichFields, objGet]
    split_ifs <;> simp_all [lookup_objSet]
  · intro v hv htr
    have hv2 : List.lookup "currency" fields = some v := hv
    simp only [enrichFields, objGet]
    split_ifs <;> simp_all [lookup_objSet]
  · intro key hk1 hk2 hk3
    simp only [enrichFields, objGet, lookup_objSet]
    split_ifs <;> simp [lookup_objSet, hk1, hk2, hk3]

/-- Concrete instantiation of the amended C7 theorem: the model emitted
merchant "lidl gaia", category "Alimentação" and currency "EUR" plus a total;
the rule fires, the merchant is canonicalized, the truthy category and
currency survive, and the total is untouched. -/
theorem c7_witness :
    enrichStep (some (Json.obj [("merchant", Json.str "lidl gaia"),
        ("category", Json.str "Alimentação"), ("currency", Json.str "EUR"),
        ("total", Json.num 7)])) =
      .done (some (Json.obj (enrichFields
        [("merchant", Json.str "lidl gaia"),
         ("category", Json.str "Alimentação"), ("currency", Json.str "EUR"),
         ("total", Json.num 7)] ⟨"Lidl", "Supermercado", "EUR"⟩))) true ∧
    objGet (enrichFields [("merchant", Json.str "lidl gaia"),
        ("category", Json.str "Alimentação"), ("currency", Json.str "EUR"),
        ("total", Json.num 7)] ⟨"Lidl", "Supermercado", "EUR"⟩)
      "merchant" = some (Json.str "Lidl") ∧
    objGet (enrichFields [("merchant", Json.str "lidl gaia"),
        ("category", Json.str "Alimentação"), ("currency", Json.str "EUR"),
        ("total", Json.num 7)] ⟨"Lidl", "Supermercado", "EUR"⟩)
      "category" = some (Json.str "Alimentação") ∧
    objGet (enrichFields [("merchant", Json.str "lidl gaia"),
        ("category", Json.str "Alimentação"), ("currency", Json.str "EUR"),
        ("total", Json.num 7)] ⟨"Lidl", "Supermercado", "EUR"⟩)
      "currency" = some (Json.str "EUR") ∧
    objGet (enrichFields [("merchant", Json.str "lidl gaia"),
        ("category", Json.str "Alimentação"), ("currency", Json.str "EUR"),
        ("total", Json.num 7)] ⟨"Lidl", "Supermercado", "EUR"⟩)
      "total" = objGet [("merchant", Json.str "lidl gaia"),
        ("category", Json.str "Alimentação"), ("currency", Json.str "EUR"),
        ("total", Json.num 7)] "total" := by
  obtain ⟨h1, h2, h3, h4, h5⟩ := c7_enrichment_frame
    [("merchant", Json.str "lidl gaia"),
     ("category", Json.str "Alimentação"), ("currency", Json.str "EUR"),
     ("total", Json.num 7)] "lidl gaia" ⟨"Lidl", "Supermercado", "EUR"⟩
    rfl rfl rfl
  exact ⟨h1, h2, h3 (Json.str "Alimentação") rfl rfl,
    h4 (Json.str "EUR") rfl rfl,
    h5 "total" (by decide) (by decide) (by decide)⟩

end FeedCenter
